import Mathlib

/-!
Shallow embedding of the graph traversal / layout engine of knowledgeCanvas
(`src/app/page.tsx`), together with proofs of the specification claims.

Conventions used throughout the embedding:
* JavaScript `Map` / `Set` objects are modelled as lists of keys in insertion
  order (`setAdd` appends a key if it is not yet present, which is exactly the
  observable behaviour of `Set.add` / `Map.set` for iteration purposes).
* JavaScript numbers are modelled as `ℚ` (for coordinates / physics) or `Int`
  (for degree counters and layer indices).  Falsy-default expressions such as
  `x || 1` are embedded literally (`if x = 0 then 1 else x`).
* `string.toLowerCase()`, `trim()` and `split(/\s+/)` are modelled on the
  character list of the string (ASCII-faithful).
* The recursion `traverseGraph(start, currentDepth, maxDepth, ...)` stops as
  soon as `currentDepth > maxDepth`; it is embedded with the exact fuel
  reparameterisation `fuel = maxDepth + 1 - currentDepth` (so the top-level
  call at `currentDepth = 0` receives `fuel = maxDepth + 1`, and
  `currentDepth > maxDepth` is precisely `fuel = 0`).
-/

/-- `NodeType` from `src/types/index.ts`: `'file' | 'note' | 'link'`. -/
inductive NodeType where
  | file : NodeType
  | note : NodeType
  | link : NodeType
deriving DecidableEq, Repr, BEq

/-- `NodeData` from `src/types/index.ts`.  `tags?` being `undefined` is
modelled as the empty list (both behave identically in every use site:
`node.tags && node.tags.some(...)` is falsy for `undefined` and `false` for
`[]`).  Optional numeric fields are `Option ℚ`. -/
structure NodeData where
  id : String
  type : NodeType
  title : String
  content : Option String := none
  tags : List String := []
  x : ℚ := 0
  y : ℚ := 0
  width : Option ℚ := none
  height : Option ℚ := none
  vx : Option ℚ := none
  vy : Option ℚ := none
  fx : Option ℚ := none
  fy : Option ℚ := none
deriving DecidableEq, Repr

/-- `LinkData` from `src/types/index.ts`. -/
structure LinkData where
  id : String
  sourceNodeId : String
  targetNodeId : String
deriving DecidableEq, Repr

/-! ### String helpers (JS `toLowerCase`, `trim`, `includes`, `split(/\s+/)`) -/

/-- ASCII model of `String.prototype.toLowerCase`. -/
def strLower (s : String) : String := String.mk (s.data.map Char.toLower)

/-- Model of `String.prototype.trim`: strip leading and trailing whitespace. -/
def strTrim (s : String) : String :=
  String.mk (((s.data.dropWhile Char.isWhitespace).reverse.dropWhile Char.isWhitespace).reverse)

/-- `listStartsWith s p` : `p` is a prefix of the character list `s`. -/
def listStartsWith : List Char → List Char → Bool
  | _, [] => true
  | [], _ :: _ => false
  | c :: cs, d :: ds => c = d && listStartsWith cs ds

/-- `listHasSub s p` : `p` occurs contiguously inside `s`. -/
def listHasSub : List Char → List Char → Bool
  | [], p => p.isEmpty
  | s@(_ :: rest), p => listStartsWith s p || listHasSub rest p

/-- Model of `String.prototype.includes`: `jsIncludes s sub` iff `sub` is a
contiguous substring of `s`. -/
def jsIncludes (s sub : String) : Bool := listHasSub s.data sub.data

/-- Splitting on runs of whitespace, dropping empty fragments: the composite
`.split(/\s+/).filter(term => term.length > 0)` of the source. -/
def splitWsAux : List Char → List Char → List String
  | [], acc => if acc.isEmpty then [] else [String.mk acc.reverse]
  | c :: cs, acc =>
    if c.isWhitespace then
      (if acc.isEmpty then splitWsAux cs [] else String.mk acc.reverse :: splitWsAux cs [])
    else splitWsAux cs (c :: acc)

/-- `page.tsx` line 894:
`trimmedSearchTerm.toLowerCase().split(/\s+/).filter(term => term.length > 0)`. -/
def parseSearchTerms (searchTerm : String) : List String :=
  splitWsAux (strLower (strTrim searchTerm)).data []

/-! ### Search predicate (`matchedInitialNodes` filter, `page.tsx` 896-919) -/

/-- The node predicate of `filteredNodesAndLinks` (`page.tsx` 896-919),
applied to the already-computed `searchTerms` and `selectedFilterTags`. -/
def matchesNode (searchTerms selectedFilterTags : List String) (node : NodeData) : Bool :=
  let matchesSelectedTags :=
    if selectedFilterTags.length > 0 then
      node.tags.any (fun tag => selectedFilterTags.contains tag)
    else true
  let matchesSearchTerms :=
    if searchTerms.length > 0 then
      searchTerms.all (fun term =>
        let titleMatch := jsIncludes (strLower node.title) term
        let contentMatch :=
          (node.type == NodeType.note || node.type == NodeType.file
            || node.type == NodeType.link)
          && (match node.content with
              | some c => jsIncludes (strLower c) term
              | none => false)
        let tagMatch := node.tags.any (fun tag => jsIncludes (strLower tag) term)
        titleMatch || contentMatch || tagMatch)
    else true
  if selectedFilterTags.length > 0 && searchTerms.length > 0 then
    matchesSelectedTags && matchesSearchTerms
  else if selectedFilterTags.length > 0 then matchesSelectedTags
  else if searchTerms.length > 0 then matchesSearchTerms
  else false

/-! ### Depth-bounded traversal (`traverseGraph`, `page.tsx` 74-109) -/

/-- JS `Set.add` / `Map.set` on a list of keys in insertion order. -/
def setAdd (l : List String) (x : String) : List String :=
  if x ∈ l then l else l ++ [x]

/-- The three mutable collections threaded through `traverseGraph`:
`visitedNodesInPath` (a per-walk set), `collectedNodes` (the key list of the
accumulated `Map`; its values are recovered by node lookup) and
`collectedLinkIds`. -/
structure TravState where
  visitedNodesInPath : List String
  collectedNodes : List String
  collectedLinkIds : List String
deriving DecidableEq, Repr

/-- `traverseGraph` (`page.tsx` 74-109), with
`fuel = maxDepth + 1 - currentDepth` (the guard `currentDepth > maxDepth` is
`fuel = 0`).  The `currentNode` lookup is performed before inserting into
`visitedNodesInPath`; in the source the insertion happens first and is undone
(`delete`) when the lookup fails, with the same net state. -/
def traverseGraph (allNodes : List NodeData) (allLinks : List LinkData) :
    Nat → String → TravState → TravState
  | 0, _, st => st
  | fuel + 1, startNodeId, st =>
    if startNodeId ∈ st.visitedNodesInPath then st
    else
      match allNodes.find? (fun n => n.id == startNodeId) with
      | none => st
      | some _ =>
        let st1 : TravState :=
          { visitedNodesInPath := startNodeId :: st.visitedNodesInPath
            collectedNodes := setAdd st.collectedNodes startNodeId
            collectedLinkIds := st.collectedLinkIds }
        let relatedLinks := allLinks.filter (fun link =>
          link.sourceNodeId == startNodeId || link.targetNodeId == startNodeId)
        let st2 := relatedLinks.foldl (fun acc link =>
          let neighborId :=
            if link.sourceNodeId = startNodeId then link.targetNodeId
            else link.sourceNodeId
          match allNodes.find? (fun n => n.id == neighborId) with
          | none => acc
          | some _ =>
            traverseGraph allNodes allLinks fuel neighborId
              { acc with collectedLinkIds := setAdd acc.collectedLinkIds link.id }) st1
        { st2 with visitedNodesInPath := st2.visitedNodesInPath.erase startNodeId }

/-- Number of invocations of `traverseGraph` (the call itself plus all
recursive calls) performed by a call with the given arguments; the state is
threaded exactly as in `traverseGraph`. -/
def traverseCalls (allNodes : List NodeData) (allLinks : List LinkData) :
    Nat → String → TravState → Nat
  | 0, _, _ => 1
  | fuel + 1, startNodeId, st =>
    if startNodeId ∈ st.visitedNodesInPath then 1
    else
      match allNodes.find? (fun n => n.id == startNodeId) with
      | none => 1
      | some _ =>
        let st1 : TravState :=
          { visitedNodesInPath := startNodeId :: st.visitedNodesInPath
            collectedNodes := setAdd st.collectedNodes startNodeId
            collectedLinkIds := st.collectedLinkIds }
        let relatedLinks := allLinks.filter (fun link =>
          link.sourceNodeId == startNodeId || link.targetNodeId == startNodeId)
        (relatedLinks.foldl (fun (acc : TravState × Nat) link =>
          let neighborId :=
            if link.sourceNodeId = startNodeId then link.targetNodeId
            else link.sourceNodeId
          match allNodes.find? (fun n => n.id == neighborId) with
          | none => acc
          | some _ =>
            let st' : TravState :=
              { acc.1 with collectedLinkIds := setAdd acc.1.collectedLinkIds link.id }
            (traverseGraph allNodes allLinks fuel neighborId st',
             acc.2 + traverseCalls allNodes allLinks fuel neighborId st')) (st1, 1)).2

/-! ### `filteredNodesAndLinks` (`page.tsx` 888-946) -/

/-- The `filteredNodesAndLinks` memo (`page.tsx` 888-946) as a pure function
of the state it reads: `nodes`, `links`, `searchTerm`, `searchDepth`,
`selectedFilterTags`.  Returns `(displayNodes, displayLinks)`. -/
def filteredNodesAndLinks (nodes : List NodeData) (links : List LinkData)
    (searchTerm : String) (searchDepth : Nat) (selectedFilterTags : List String) :
    List NodeData × List LinkData :=
  let trimmedSearchTerm := strTrim searchTerm
  if trimmedSearchTerm = "" ∧ selectedFilterTags = [] then (nodes, links)
  else
    let searchTerms := parseSearchTerms searchTerm
    let matchedInitialNodes :=
      nodes.filter (fun node => matchesNode searchTerms selectedFilterTags node)
    if matchedInitialNodes = [] ∧ (trimmedSearchTerm ≠ "" ∨ selectedFilterTags ≠ []) then
      ([], [])
    else if matchedInitialNodes = [] ∧ trimmedSearchTerm = "" ∧ selectedFilterTags = [] then
      (nodes, links)
    else
      let finalState := matchedInitialNodes.foldl (fun st startNode =>
        traverseGraph nodes links (searchDepth + 1) startNode.id
          { st with visitedNodesInPath := [] })
        ⟨[], [], []⟩
      let displayNodes :=
        finalState.collectedNodes.filterMap (fun id => nodes.find? (fun n => n.id == id))
      let displayLinks := links.filter (fun link =>
        finalState.collectedLinkIds.contains link.id
        && finalState.collectedNodes.contains link.sourceNodeId
        && finalState.collectedNodes.contains link.targetNodeId)
      (displayNodes, displayLinks)

/-! ### Hierarchical layout (`applyHierarchicalLayout`, `page.tsx` 1004-1267) -/

/-- A proposed position (`{x, y}`). -/
structure Pt where
  x : ℚ
  y : ℚ
deriving DecidableEq, Repr

/-- Stable sort modelling `Array.prototype.sort` with a consistent comparator:
insertion sort by the boolean relation `le` (`le a b` = "the comparator
returns `≤ 0` on `(a, b)`"). -/
def jsInsert {α : Type} (le : α → α → Bool) (x : α) : List α → List α
  | [] => [x]
  | y :: ys => if le x y then x :: y :: ys else y :: jsInsert le x ys

/-- See `jsInsert`. -/
def jsSortBy {α : Type} (le : α → α → Bool) : List α → List α
  | [] => []
  | x :: xs => jsInsert le x (jsSortBy le xs)

/-- `x || d` for a JS number `x` read out of a map (`none` = key absent):
`undefined` and `0` are falsy. -/
def jsNum (o : Option ℚ) (d : ℚ) : ℚ :=
  match o with
  | none => d
  | some v => if v = 0 then d else v

/-- Key list of the JS `Map` built from `nodesToLayout` (`layoutNodesMap`):
ids in first-insertion order, duplicates collapsed. -/
def jsMapKeys (nodes : List NodeData) : List String :=
  nodes.foldl (fun acc n => if n.id ∈ acc then acc else acc ++ [n.id]) []

/-- Value lookup in `layoutNodesMap` (for duplicate ids, `Map` keeps the last
value set). -/
def jsMapGet (nodes : List NodeData) (id : String) : Option NodeData :=
  nodes.reverse.find? (fun n => n.id == id)

/-- The adjacency structures built in `page.tsx` 1017-1036: `adj`, `revAdj`,
`inDegree`, `outDegree`.  All four maps are initialised on every key of
`layoutNodesMap` with `[]`/`0`, which is the constant base function here. -/
structure Adjacency where
  adj : String → List String
  revAdj : String → List String
  inDegree : String → Int
  outDegree : String → Int

/-- `linksToConsider.forEach(...)` (`page.tsx` 1029-1036): an edge is recorded
only when both endpoints are keys of `layoutNodesMap`. -/
def buildAdjacency (mapIds : List String) (links : List LinkData) : Adjacency :=
  links.foldl (fun g link =>
    if link.sourceNodeId ∈ mapIds ∧ link.targetNodeId ∈ mapIds then
      { adj := fun k =>
          if k = link.sourceNodeId then g.adj k ++ [link.targetNodeId] else g.adj k
        revAdj := fun k =>
          if k = link.targetNodeId then g.revAdj k ++ [link.sourceNodeId] else g.revAdj k
        inDegree := fun k =>
          if k = link.targetNodeId then g.inDegree k + 1 else g.inDegree k
        outDegree := fun k =>
          if k = link.sourceNodeId then g.outDegree k + 1 else g.outDegree k }
    else g)
    ⟨fun _ => [], fun _ => [], fun _ => 0, fun _ => 0⟩

/-- One dequeue step of Kahn's algorithm (`page.tsx` 1047-1054): walk `adj u`,
decrement `tempInDegree` (`(tempInDegree.get(v) || 1) - 1`, with the JS falsy
default on `0`), and collect the nodes whose counter reaches `0`, in order. -/
def kahnProcess (mapIds : List String) : List String → (String → Int) →
    (String → Int) × List String
  | [], t => (t, [])
  | v :: vs, t =>
    if v ∈ mapIds then
      let nv := (if t v = 0 then 1 else t v) - 1
      let t' := fun k => if k = v then nv else t k
      let r := kahnProcess mapIds vs t'
      (r.1, (if nv = 0 then [v] else []) ++ r.2)
    else kahnProcess mapIds vs t

/-- The `while (headTopo < qForTopo.length)` loop (`page.tsx` 1044-1055).
`remaining` is the unprocessed suffix `qForTopo.slice(headTopo)`; dequeued
ids are appended to `topo`.  The fuel is an upper bound on the number of
iterations (each enqueued id is distinct, see `kahnLoop_spec`), consuming it
exactly once per dequeue. -/
def kahnLoop (mapIds : List String) (adj : String → List String) :
    Nat → (String → Int) → List String → List String → List String
  | 0, _, _, topo => topo
  | _ + 1, _, [], topo => topo
  | fuel + 1, t, u :: rest, topo =>
    let r := kahnProcess mapIds (adj u) t
    kahnLoop mapIds adj fuel r.1 (rest ++ r.2) (topo ++ [u])

/-- One step of the reverse-topological-order layer computation
(`page.tsx` 1060-1075), processing node `u`. -/
def stepLayer (g : Adjacency) (mapIds : List String) (layer : String → Int)
    (u : String) : String → Int :=
  if g.outDegree u = 0 then fun k => if k = u then 0 else layer k
  else
    let maxChild := (g.adj u).foldl
      (fun m v => if v ∈ mapIds then max m (layer v) else m) (-1)
    fun k => if k = u then (if maxChild = -1 then -1 else maxChild) + 1 else layer k

/-- Key list of the layout map for a snapshot. -/
def hierMapIds (nodes : List NodeData) : List String := jsMapKeys nodes

/-- Adjacency of the layout run. -/
def hierIndex (nodes : List NodeData) (links : List LinkData) : Adjacency :=
  buildAdjacency (hierMapIds nodes) links

/-- `rootNodes` (`page.tsx` 1093-1095) — also the initial `qForTopo`
(`page.tsx` 1039-1041): map values with in-degree `0`, in key order. -/
def hierRootNodes (nodes : List NodeData) (links : List LinkData) : List String :=
  (hierMapIds nodes).filter (fun id => (hierIndex nodes links).inDegree id = 0)

/-- `topoOrder` (`page.tsx` 1038-1055). -/
def hierTopoOrder (nodes : List NodeData) (links : List LinkData) : List String :=
  kahnLoop (hierMapIds nodes) (hierIndex nodes links).adj (hierMapIds nodes).length
    (hierIndex nodes links).inDegree (hierRootNodes nodes links) []

/-- `layerRTL` (`page.tsx` 1057-1075): every key starts at `0`; the loop
`for (i = topoOrder.length - 1; i >= 0; i--)` processes `topoOrder` from the
end, i.e. folds over its reverse. -/
def hierLayerRTL (nodes : List NodeData) (links : List LinkData) : String → Int :=
  (hierTopoOrder nodes links).reverse.foldl
    (fun layer u => stepLayer (hierIndex nodes links) (hierMapIds nodes) layer u)
    (fun _ => 0)

/-- `maxLayerRTL` (`page.tsx` 1077-1078): maximum of the `layerRTL` values
over the map keys, starting from `0`. -/
def hierMaxLayerRTL (nodes : List NodeData) (links : List LinkData) : Int :=
  (hierMapIds nodes).foldl
    (fun m id => if hierLayerRTL nodes links id > m then hierLayerRTL nodes links id else m) 0

/-- `visualColumnIndex = maxLayerRTL - layerRTL` (`page.tsx` 1129, 1185):
the column a node is placed in. -/
def visualColumn (nodes : List NodeData) (links : List LinkData) (id : String) : Int :=
  hierMaxLayerRTL nodes links - hierLayerRTL nodes links id

/-- `getFullGroup` (`page.tsx` 1101-1120): depth-first collection of the whole
weakly connected component of `startNodeId` (descendants via `adj`, ancestors
via `revAdj`).  The state is `(visitedForGrouping, currentGroup)`, both in
insertion order.  The fuel bounds the recursion depth; every effective call
permanently adds a fresh id to `visited`, so depth `mapIds.length + 1` is
never exhausted on the states this program builds. -/
def getFullGroup (adj revAdj : String → List String) (mapIds : List String) :
    Nat → String → List String × List String → List String × List String
  | 0, _, st => st
  | fuel + 1, startNodeId, st =>
    if startNodeId ∈ st.1 ∨ startNodeId ∈ st.2 then st
    else
      let st1 := (st.1 ++ [startNodeId], st.2 ++ [startNodeId])
      let st2 := (adj startNodeId).foldl (fun acc childId =>
        if childId ∈ mapIds then getFullGroup adj revAdj mapIds fuel childId acc
        else acc) st1
      (revAdj startNodeId).foldl (fun acc parentId =>
        if parentId ∈ mapIds then getFullGroup adj revAdj mapIds fuel parentId acc
        else acc) st2

/-- The in-group sort (`page.tsx` 1128-1136 and 1148-1155): ascending visual
column, ties by the node's current `y`. -/
def sortedGroupOf (nodes : List NodeData) (links : List LinkData)
    (group : List String) : List String :=
  jsSortBy (fun a b =>
    let layerA := visualColumn nodes links a
    let layerB := visualColumn nodes links b
    if layerA ≠ layerB then layerA ≤ layerB
    else
      ((jsMapGet nodes a).elim 0 (fun n => n.y)) ≤ ((jsMapGet nodes b).elim 0 (fun n => n.y)))
    group

/-- One pass of group collection (`page.tsx` 1122-1140 for the roots and
1143-1159 for everything left over): the accumulator carries
`(visitedForGrouping, nodeGroups)`. -/
def collectGroups (nodes : List NodeData) (links : List LinkData)
    (starts : List String) (acc : List String × List (List String)) :
    List String × List (List String) :=
  starts.foldl (fun acc startId =>
    if startId ∈ acc.1 then acc
    else
      let r := getFullGroup (hierIndex nodes links).adj (hierIndex nodes links).revAdj
        (hierMapIds nodes) ((hierMapIds nodes).length + 1) startId (acc.1, [])
      if r.2 ≠ [] then (r.1, acc.2 ++ [sortedGroupOf nodes links r.2])
      else (r.1, acc.2)) acc

/-- `Math.min(...)` over a list, starting from `Infinity`; `none` is
`Infinity`. -/
def jsMinInt (l : List Int) : Option Int :=
  l.foldl (fun m c => match m with | none => some c | some v => some (min v c)) none

/-- Comparison with `none` as `+Infinity`. -/
def infLeInt (a b : Option Int) : Bool :=
  match a, b with
  | _, none => true
  | none, some _ => false
  | some x, some y => x ≤ y

/-- Comparison with `none` as `+Infinity` (rationals). -/
def infLeQ (a b : Option ℚ) : Bool :=
  match a, b with
  | _, none => true
  | none, some _ => false
  | some x, some y => x ≤ y

/-- `Math.min` with `none` as `+Infinity` (rationals). -/
def infMinQ (a b : Option ℚ) : Option ℚ :=
  match a, b with
  | none, b => b
  | a, none => a
  | some x, some y => some (min x y)

/-- `layoutNodesMap.get(id)?.y || Infinity` (`page.tsx` 1169-1170): a missing
node, or a node whose `y` is `0` (falsy), yields `Infinity` (`none`). -/
def jsYOrInf (nodes : List NodeData) (id : String) : Option ℚ :=
  match jsMapGet nodes id with
  | none => none
  | some n => if n.y = 0 then none else some n.y

/-- `nodeGroups` (`page.tsx` 1089-1172): groups grown from the roots, then
from every not-yet-visited map node, then sorted by leftmost column and
minimum original `y` (`page.tsx` 1164-1172). -/
def hierNodeGroups (nodes : List NodeData) (links : List LinkData) : List (List String) :=
  let pass1 := collectGroups nodes links (hierRootNodes nodes links) ([], [])
  let pass2 := collectGroups nodes links (hierMapIds nodes) pass1
  jsSortBy (fun groupA groupB =>
    let minColA := jsMinInt (groupA.map (fun id => visualColumn nodes links id))
    let minColB := jsMinInt (groupB.map (fun id => visualColumn nodes links id))
    if minColA ≠ minColB then infLeInt minColA minColB
    else
      infLeQ (groupA.foldl (fun m id => infMinQ m (jsYOrInf nodes id)) none)
            (groupB.foldl (fun m id => infMinQ m (jsYOrInf nodes id)) none))
    pass2.2

/-- Layout constants (`page.tsx` 1082-1087). -/
def DEFAULT_NODE_WIDTH : ℚ := 256

/-- See `DEFAULT_NODE_WIDTH`. -/
def DEFAULT_NODE_HEIGHT : ℚ := 160

/-- See `DEFAULT_NODE_WIDTH`. -/
def HORIZONTAL_SPACING : ℚ := 100

/-- See `DEFAULT_NODE_WIDTH`. -/
def VERTICAL_SPACING : ℚ := 60

/-- See `DEFAULT_NODE_WIDTH`. -/
def PAGE_MARGIN_X : ℚ := 50

/-- See `DEFAULT_NODE_WIDTH`. -/
def PAGE_MARGIN_Y : ℚ := 50

/-- `Map.set` on an association list keyed by `String`. -/
def mapSet (m : List (String × Pt)) (k : String) (v : Pt) : List (String × Pt) :=
  if m.any (fun e => e.1 == k) then
    m.map (fun e => if e.1 == k then (k, v) else e)
  else m ++ [(k, v)]

/-- The distinct visual column keys of one group, ascending
(`Array.from(nodesByVisualColumnInGroup.keys()).sort((a,b) => a-b)`,
`page.tsx` 1202/1223). -/
def groupColKeys (nodes : List NodeData) (links : List LinkData)
    (group : List String) : List Int :=
  jsSortBy (fun a b => a ≤ b)
    ((group.map (fun id => visualColumn nodes links id)).foldl
      (fun ks c => if c ∈ ks then ks else ks ++ [c]) [])

/-- The nodes of one group falling in visual column `c`, sorted by ascending
in-degree then title (`page.tsx` 1205-1210; the first column loop sorts the
stored array in place, so the placement loop sees the sorted order). -/
def groupColumnNodes (nodes : List NodeData) (links : List LinkData)
    (group : List String) (c : Int) : List NodeData :=
  jsSortBy (fun a b =>
    let inDegreeA := (hierIndex nodes links).inDegree a.id
    let inDegreeB := (hierIndex nodes links).inDegree b.id
    if inDegreeA ≠ inDegreeB then inDegreeA ≤ inDegreeB
    else a.title ≤ b.title)
    ((group.filterMap (fun id => jsMapGet nodes id)).filter
      (fun n => visualColumn nodes links n.id = c))

/-- `groupHeight` (`page.tsx` 1199-1219): the tallest column of the group. -/
def groupHeightOf (nodes : List NodeData) (links : List LinkData)
    (group : List String) : ℚ :=
  (groupColKeys nodes links group).foldl (fun gh c =>
    let currentYInColumn := (groupColumnNodes nodes links group c).foldl
      (fun y n => y + jsNum n.height DEFAULT_NODE_HEIGHT + VERTICAL_SPACING) 0
    max gh (currentYInColumn - VERTICAL_SPACING)) 0

/-- Placement of one group (`page.tsx` 1222-1232): per ascending column,
`x = PAGE_MARGIN_X + col * (width + hGap)` and stacked `y` starting at the
group's `startYForGroup`. -/
def placeGroup (nodes : List NodeData) (links : List LinkData)
    (group : List String) (startYForGroup : ℚ)
    (positions : List (String × Pt)) : List (String × Pt) :=
  (groupColKeys nodes links group).foldl (fun positions (c : Int) =>
    let layerX := PAGE_MARGIN_X + (c : ℚ) * (DEFAULT_NODE_WIDTH + HORIZONTAL_SPACING)
    ((groupColumnNodes nodes links group c).foldl (fun (acc : List (String × Pt) × ℚ) n =>
      (mapSet acc.1 n.id ⟨layerX, acc.2⟩,
       acc.2 + jsNum n.height DEFAULT_NODE_HEIGHT + VERTICAL_SPACING))
      (positions, startYForGroup)).1) positions

/-- The full group placement loop (`page.tsx` 1175-1234): threads
`(newPositionsMap, currentGlobalMaxY)`. -/
def placeGroups (nodes : List NodeData) (links : List LinkData)
    (groups : List (List String)) : List (String × Pt) × ℚ :=
  groups.foldl (fun acc group =>
    let startYForGroup := acc.2
    let positions := placeGroup nodes links group startYForGroup acc.1
    (positions, startYForGroup + groupHeightOf nodes links group + VERTICAL_SPACING * 2))
    ([], PAGE_MARGIN_Y)

/-- `applyHierarchicalLayout` (`page.tsx` 1004-1267), reduced to its output:
the `newPositionsMap` proposed for the given snapshot.  An empty snapshot
returns early with no positions.  After group placement, the fallback loop
(`page.tsx` 1236-1250) appends a position for every map node not yet placed
(`effectiveMaxVisualColumn` is declared and never updated in the source, so
the fallback column is computed from `0`; `nodesByVisualColumn` is likewise
never populated, so its size is always `0`). -/
def applyHierarchicalLayout (nodes : List NodeData) (links : List LinkData) :
    List (String × Pt) :=
  if nodes = [] then []
  else
    let groups := hierNodeGroups nodes links
    let placed := placeGroups nodes links groups
    let effectiveMaxVisualColumn : Int := 0
    let unPositionedColumnX :=
      if (hierMapIds nodes).length = placed.1.length ∧ groups = [] then PAGE_MARGIN_X
      else PAGE_MARGIN_X +
        ((effectiveMaxVisualColumn : ℚ) + 1) * (DEFAULT_NODE_WIDTH + HORIZONTAL_SPACING)
    ((hierMapIds nodes).foldl (fun (acc : List (String × Pt) × ℚ) id =>
      if acc.1.any (fun e => e.1 == id) then acc
      else
        (mapSet acc.1 id ⟨unPositionedColumnX, acc.2⟩,
         acc.2 + jsNum ((jsMapGet nodes id).bind (fun n => n.height)) DEFAULT_NODE_HEIGHT
           + VERTICAL_SPACING)) (placed.1, placed.2)).1

/-! ### Force-directed layout: per-node integration step
(`applyForceDirectedLayout`, `page.tsx` 1365-1388) -/

/-- `DAMPING_FACTOR = 0.9` (`page.tsx` 115). -/
def DAMPING_FACTOR : ℚ := 9 / 10

/-- Result of one velocity/position integration for one node. -/
structure StepResult where
  x : ℚ
  y : ℚ
  vx : ℚ
  vy : ℚ
deriving DecidableEq, Repr

/-- The velocity/position update and boundary clamp applied to a non-pinned
node in one simulation step (`page.tsx` 1365-1382), given the net force
accumulated for it (`forceX`, `forceY`); the repulsion/attraction
accumulation that produces the net force is left universally quantified in
the theorems, which therefore hold for every net force.  A pinned node
(`fx !== null && fy !== null`) skips this update entirely and is snapped to
its pin (`page.tsx` 1319-1323). -/
def integrateNode (x y vx vy forceX forceY : ℚ) : StepResult :=
  let vx1 := (vx + forceX) * DAMPING_FACTOR
  let vy1 := (vy + forceY) * DAMPING_FACTOR
  let x1 := x + vx1
  let y1 := y + vy1
  let xc := if x1 < 0 then ((0 : ℚ), vx1 * (-(1 / 2))) else (x1, vx1)
  let yc := if y1 < 0 then ((0 : ℚ), vy1 * (-(1 / 2))) else (y1, vy1)
  ⟨xc.1, yc.1, xc.2, yc.2⟩

/-! ### Claim-side (specification) definitions -/

/-- Modelled from the claim wording of C10: a single search term matches a
node when it occurs (case-insensitively) in the title, in the content, or in
at least one tag. -/
def specTermMatches (node : NodeData) (term : String) : Prop :=
  jsIncludes (strLower node.title) term = true
  ∨ (∃ c, node.content = some c ∧ jsIncludes (strLower c) term = true)
  ∨ (∃ tag ∈ node.tags, jsIncludes (strLower tag) term = true)

/-- Modelled from the claim wording of C10: the initial-match predicate —
all whitespace-separated lowercased terms must match (conjunctive), and when
tag filters are selected the node must carry at least one selected tag by
exact equality (disjunctive); both conditions apply when both are active. -/
def specInitialMatch (searchTerm : String) (selectedFilterTags : List String)
    (node : NodeData) : Prop :=
  (parseSearchTerms searchTerm ≠ [] →
    ∀ t ∈ parseSearchTerms searchTerm, specTermMatches node t)
  ∧ (selectedFilterTags ≠ [] → ∃ tag ∈ node.tags, tag ∈ selectedFilterTags)

/-! ### Concrete snapshots used by the closed witnesses and counterexamples -/

/-- Fixture node (title "A" etc.); the snapshot `[fixA, fixB, fixC, fixD]`
with `fixAB, fixBC` is the worked example of spec §8. -/
def fixA : NodeData := { id := "a", type := .note, title := "A" }

/-- See `fixA`. -/
def fixB : NodeData := { id := "b", type := .note, title := "B" }

/-- See `fixA`. -/
def fixC : NodeData := { id := "c", type := .note, title := "C" }

/-- See `fixA`. -/
def fixD : NodeData := { id := "d", type := .note, title := "D" }

/-- Edge a→b. -/
def fixAB : LinkData := ⟨"l1", "a", "b"⟩

/-- Edge b→c. -/
def fixBC : LinkData := ⟨"l2", "b", "c"⟩

/-- Edge b→a (together with `fixAB`, a 2-cycle). -/
def fixBA : LinkData := ⟨"l3", "b", "a"⟩

/-- Two nodes both matching the search term "x", directly linked. -/
def fixMA : NodeData := { id := "a", type := .note, title := "x one" }

/-- See `fixMA`. -/
def fixMB : NodeData := { id := "b", type := .note, title := "x two" }

/-- Self-loop fixture: `fixUV` is u→v and `fixUU` is the self-loop u→u. -/
def fixU : NodeData := { id := "u", type := .note, title := "U" }

/-- See `fixU`. -/
def fixV : NodeData := { id := "v", type := .note, title := "V" }

/-- See `fixU`. -/
def fixUV : LinkData := ⟨"s1", "u", "v"⟩

/-- See `fixU`. -/
def fixUU : LinkData := ⟨"s2", "u", "u"⟩

/-- Proof-auxiliary counter for Kahn's algorithm: the number of links with
both endpoints in the map, target `v`, whose source has not yet been
processed (is not in `P`). -/
def pendCount (mapIds : List String) (links : List LinkData) (P : List String)
    (v : String) : Nat :=
  links.countP (fun l =>
    decide (l.sourceNodeId ∈ mapIds ∧ l.targetNodeId ∈ mapIds) &&
    (l.targetNodeId == v) && decide (l.sourceNodeId ∉ P))

/-- Proof-auxiliary invariant of the Kahn loop state `(t, remaining, topo)`:
the queue accumulated so far (`topo ++ remaining`) is duplicate-free and
inside the map, the counter map `t` counts the pending in-edges with respect
to the processed prefix `topo`, queue membership is equivalent to a zero
pending count, and every recorded edge into `topo` has its source placed
earlier in `topo`. -/
def KahnInv (mapIds : List String) (links : List LinkData)
    (t : String → Int) (remaining topo : List String) : Prop :=
  (topo ++ remaining).Nodup ∧
  (∀ x ∈ topo ++ remaining, x ∈ mapIds) ∧
  (∀ v, t v = (pendCount mapIds links topo v : Int)) ∧
  (∀ v ∈ mapIds, (v ∈ topo ++ remaining ↔ pendCount mapIds links topo v = 0)) ∧
  (∀ l ∈ links, l.sourceNodeId ∈ mapIds → l.targetNodeId ∈ mapIds →
    l.targetNodeId ∈ topo → [l.sourceNodeId, l.targetNodeId].Sublist topo)

/-- Pointwise ordering between traversal states: identical active path,
smaller collections.  Used to state that deeper traversals collect more. -/
def TravLe (s1 s2 : TravState) : Prop :=
  s1.visitedNodesInPath = s2.visitedNodesInPath ∧
  s1.collectedNodes ⊆ s2.collectedNodes ∧
  s1.collectedLinkIds ⊆ s2.collectedLinkIds

/-! ## General helper lemmas -/

/-- Membership in `setAdd`. -/
theorem mem_setAdd {l : List String} {x y : String} :
    y ∈ setAdd l x ↔ y ∈ l ∨ y = x := by
  unfold setAdd
  split
  · rename_i h
    constructor
    · exact Or.inl
    · rintro (hy | rfl)
      · exact hy
      · exact h
  · simp [or_comm]

/-- `setAdd` only grows the set. -/
theorem subset_setAdd (l : List String) (x : String) : l ⊆ setAdd l x := by
  intro y hy
  exact mem_setAdd.mpr (Or.inl hy)

/-- `setAdd` is monotone with respect to set inclusion. -/
theorem setAdd_subset_setAdd {a b : List String} (h : a ⊆ b) (x : String) :
    setAdd a x ⊆ setAdd b x := by
  intro y hy
  rcases mem_setAdd.mp hy with hy | rfl
  · exact subset_setAdd b x (h hy)
  · exact mem_setAdd.mpr (Or.inr rfl)

/-- A fold whose step preserves a binary relation between two accumulators
preserves it along the whole list. -/
theorem foldl_rel {α β : Type} {R : β → β → Prop} {f g : β → α → β}
    (h : ∀ b₁ b₂ a, R b₁ b₂ → R (f b₁ a) (g b₂ a)) :
    ∀ (ls : List α) (b₁ b₂ : β), R b₁ b₂ → R (ls.foldl f b₁) (ls.foldl g b₂) := by
  intro ls
  induction ls with
  | nil => intro b₁ b₂ hb; simpa using hb
  | cons l ls ih =>
    intro b₁ b₂ hb
    simpa using ih (f b₁ l) (g b₂ l) (h b₁ b₂ l hb)

/-- A fold whose step preserves a predicate preserves it along the list. -/
theorem foldl_invariant {α β : Type} {P : β → Prop} {f : β → α → β}
    (h : ∀ b a, P b → P (f b a)) :
    ∀ (ls : List α) (b : β), P b → P (ls.foldl f b) := by
  intro ls
  induction ls with
  | nil => intro b hb; simpa using hb
  | cons l ls ih => intro b hb; simpa using ih (f b l) (h b l hb)

/-! ## C7: force-directed integration step -/

/-- C7: for a non-pinned node, one simulation step sets the velocity to
`(velocity + netForce) × dampingFactor` with `dampingFactor = 0.9`, adds the
velocity to the position, and clamps each coordinate at `0` (inverting and
halving the corresponding velocity component when the clamp fires); hence
both resulting coordinates are non-negative, for every net force. -/
theorem force_step_update_and_clamp (x y vx vy forceX forceY : ℚ) :
    DAMPING_FACTOR = 9 / 10
    ∧ (integrateNode x y vx vy forceX forceY).x =
        (if x + (vx + forceX) * DAMPING_FACTOR < 0 then 0
         else x + (vx + forceX) * DAMPING_FACTOR)
    ∧ (integrateNode x y vx vy forceX forceY).vx =
        (if x + (vx + forceX) * DAMPING_FACTOR < 0 then
          (vx + forceX) * DAMPING_FACTOR * (-(1 / 2))
         else (vx + forceX) * DAMPING_FACTOR)
    ∧ (integrateNode x y vx vy forceX forceY).y =
        (if y + (vy + forceY) * DAMPING_FACTOR < 0 then 0
         else y + (vy + forceY) * DAMPING_FACTOR)
    ∧ (integrateNode x y vx vy forceX forceY).vy =
        (if y + (vy + forceY) * DAMPING_FACTOR < 0 then
          (vy + forceY) * DAMPING_FACTOR * (-(1 / 2))
         else (vy + forceY) * DAMPING_FACTOR)
    ∧ 0 ≤ (integrateNode x y vx vy forceX forceY).x
    ∧ 0 ≤ (integrateNode x y vx vy forceX forceY).y := by
  unfold integrateNode
  refine ⟨rfl, ?_, ?_, ?_, ?_, ?_, ?_⟩ <;>
    · simp only []
      split <;> (try split) <;> simp_all <;> linarith

/-! ## C10: characterisation of the initial search match -/

/-- Every `NodeType` passes the content-match type test of the source. -/
theorem nodeType_always (t : NodeType) :
    (t == NodeType.note || t == NodeType.file || t == NodeType.link) = true := by
  cases t <;> rfl

/-- C10: when the predicate is active, a node is an initial search match iff
every whitespace-separated lowercased search term occurs in its title,
content or one of its tags (conjunctive over terms), and, when tag filters
are selected, the node carries at least one selected tag by exact equality
(disjunctive over tags); both conditions apply when both are active. -/
theorem initial_match_characterization (searchTerm : String) (tags : List String)
    (node : NodeData)
    (hactive : parseSearchTerms searchTerm ≠ [] ∨ tags ≠ []) :
    matchesNode (parseSearchTerms searchTerm) tags node = true ↔
      specInitialMatch searchTerm tags node := by
  unfold matchesNode specInitialMatch specTermMatches
  cases hc : node.content with
  | none =>
    rcases eq_or_ne (parseSearchTerms searchTerm) [] with hts | hts <;>
      rcases eq_or_ne tags [] with htg | htg
    · exact absurd hactive (by simp [hts, htg])
    · simp [hts, htg, List.length_pos, List.any_eq_true]
    · simp [hts, htg, List.length_pos, List.all_eq_true, List.any_eq_true, nodeType_always,
        or_assoc, and_comm]
    · simp [hts, htg, List.length_pos, List.all_eq_true, List.any_eq_true, nodeType_always,
        or_assoc, and_comm]
  | some c =>
    rcases eq_or_ne (parseSearchTerms searchTerm) [] with hts | hts <;>
      rcases eq_or_ne tags [] with htg | htg
    · exact absurd hactive (by simp [hts, htg])
    · simp [hts, htg, List.length_pos, List.any_eq_true]
    · simp [hts, htg, List.length_pos, List.all_eq_true, List.any_eq_true, nodeType_always,
        or_assoc, and_comm]
    · simp [hts, htg, List.length_pos, List.all_eq_true, List.any_eq_true, nodeType_always,
        or_assoc, and_comm]

/-- Witness for C10 at a concrete node and active search term. -/
theorem initial_match_characterization_witness :
    parseSearchTerms "X one" ≠ [] ∧
    (matchesNode (parseSearchTerms "X one") [] fixMA = true ↔
      specInitialMatch "X one" [] fixMA) :=
  ⟨by decide, initial_match_characterization "X one" [] fixMA (Or.inl (by decide))⟩

/-! ## C9: behaviour when the predicate matches zero nodes -/

/-- C9: if the predicate matches zero nodes, the output is the full
unfiltered snapshot when the predicate was a no-op (empty trimmed search
term and no selected tags), and empty otherwise. -/
theorem zero_match_output (nodes : List NodeData) (links : List LinkData)
    (searchTerm : String) (searchDepth : Nat) (tags : List String)
    (hzero : nodes.filter
      (fun node => matchesNode (parseSearchTerms searchTerm) tags node) = []) :
    filteredNodesAndLinks nodes links searchTerm searchDepth tags =
      if strTrim searchTerm = "" ∧ tags = [] then (nodes, links) else ([], []) := by
  unfold filteredNodesAndLinks
  by_cases h : strTrim searchTerm = "" ∧ tags = []
  · simp [h]
  · rw [if_neg h, if_neg h]
    rw [not_and_or] at h
    simp only [hzero]
    rw [if_pos (And.intro trivial h)]

/-- Witness for C9: the search term "zzz" matches no node of the spec §8
snapshot, and the predicate is active, so the output is empty. -/
theorem zero_match_output_witness :
    ([fixA, fixB].filter
      (fun node => matchesNode (parseSearchTerms "zzz") [] node) = []) ∧
    filteredNodesAndLinks [fixA, fixB] [fixAB] "zzz" 1 [] =
      (if strTrim "zzz" = "" ∧ ([] : List String) = [] then ([fixA, fixB], [fixAB])
       else ([], [])) :=
  ⟨by decide, zero_match_output [fixA, fixB] [fixAB] "zzz" 1 [] (by decide)⟩

/-! ## C8: the traversal performs a bounded, finite number of calls -/

/-- A fold whose step increases the counter component by at most `B`
increases it by at most `length * B` overall. -/
theorem foldl_count_le {α β : Type} (B : Nat) (f : β × Nat → α → β × Nat)
    (hf : ∀ p a, (f p a).2 ≤ p.2 + B) :
    ∀ (ls : List α) (p : β × Nat), (ls.foldl f p).2 ≤ p.2 + ls.length * B := by
  intro ls
  induction ls with
  | nil => intro p; simp
  | cons l ls ihl =>
    intro p
    simp only [List.foldl_cons, List.length_cons]
    calc (ls.foldl f (f p l)).2 ≤ (f p l).2 + ls.length * B := ihl _
      _ ≤ p.2 + B + ls.length * B := by have := hf p l; omega
      _ = p.2 + (ls.length + 1) * B := by ring

/-- The call count of a single traversal is bounded by `(#links + 1) ^ fuel`,
for every start node and state — the recursion always bottoms out, cycles
included. -/
theorem traverseCalls_le (allNodes : List NodeData) (allLinks : List LinkData) :
    ∀ (fuel : Nat) (sid : String) (st : TravState),
      traverseCalls allNodes allLinks fuel sid st ≤ (allLinks.length + 1) ^ fuel := by
  intro fuel
  induction fuel with
  | zero => intro sid st; simp [traverseCalls]
  | succ fuel ih =>
    intro sid st
    have hone : 1 ≤ (allLinks.length + 1) ^ fuel := Nat.one_le_pow _ _ (by omega)
    have hstep : (allLinks.length + 1) ^ (fuel + 1) =
        allLinks.length * (allLinks.length + 1) ^ fuel + (allLinks.length + 1) ^ fuel := by
      ring
    unfold traverseCalls
    split
    · omega
    · split
      · omega
      · refine le_trans (foldl_count_le ((allLinks.length + 1) ^ fuel) _ ?_ _ _) ?_
        · intro p a
          dsimp only
          split
          · omega
          · have := ih (if a.sourceNodeId = sid then a.targetNodeId else a.sourceNodeId)
              { p.1 with collectedLinkIds := setAdd p.1.collectedLinkIds a.id }
            simpa using this
        · have hlen : (allLinks.filter (fun link =>
              link.sourceNodeId == sid || link.targetNodeId == sid)).length ≤
              allLinks.length := List.length_filter_le _ _
          have h2 : (allLinks.filter (fun link =>
              link.sourceNodeId == sid || link.targetNodeId == sid)).length *
              (allLinks.length + 1) ^ fuel ≤
              allLinks.length * (allLinks.length + 1) ^ fuel :=
            Nat.mul_le_mul_right _ hlen
          omega

/-- C8: for every snapshot and every `maxDepth`, the top-level traversal call
(`traverseGraph(start, 0, maxDepth, ...)`, i.e. fuel `maxDepth + 1`) performs
at most `(#links + 1) ^ (maxDepth + 1)` calls, hence terminates in finite
time even on arbitrarily cyclic graphs. -/
theorem traversal_call_count_bounded (allNodes : List NodeData)
    (allLinks : List LinkData) (maxDepth : Nat) (startNodeId : String) (st : TravState) :
    traverseCalls allNodes allLinks (maxDepth + 1) startNodeId st ≤
      (allLinks.length + 1) ^ (maxDepth + 1) :=
  traverseCalls_le allNodes allLinks (maxDepth + 1) startNodeId st

/-! ## C4: closure invariant of the traversal result -/

/-- If some node carries id `k`, the id lookup succeeds and returns a node
with id `k`. -/
theorem find?_id_mem {nodes : List NodeData} {k : String}
    (h : ∃ n ∈ nodes, n.id = k) :
    ∃ m, nodes.find? (fun n => n.id == k) = some m ∧ m.id = k := by
  obtain ⟨n, hn, hk⟩ := h
  have hsome : (nodes.find? (fun n => n.id == k)).isSome := by
    rw [List.find?_isSome]
    exact ⟨n, hn, by simp [hk]⟩
  obtain ⟨m, hm⟩ := Option.isSome_iff_exists.mp hsome
  refine ⟨m, hm, ?_⟩
  have := List.find?_some hm
  simpa using this

/-- C4: under the data-model invariant that every edge's endpoints exist in
the snapshot, every edge of the output has both endpoints present in the
output's node set, for every predicate and depth. -/
theorem traversal_result_closed (nodes : List NodeData) (links : List LinkData)
    (searchTerm : String) (searchDepth : Nat) (tags : List String)
    (hend : ∀ l ∈ links, (∃ n ∈ nodes, n.id = l.sourceNodeId) ∧
                         (∃ n ∈ nodes, n.id = l.targetNodeId)) :
    ∀ l ∈ (filteredNodesAndLinks nodes links searchTerm searchDepth tags).2,
      (∃ n ∈ (filteredNodesAndLinks nodes links searchTerm searchDepth tags).1,
        n.id = l.sourceNodeId) ∧
      (∃ n ∈ (filteredNodesAndLinks nodes links searchTerm searchDepth tags).1,
        n.id = l.targetNodeId) := by
  unfold filteredNodesAndLinks
  dsimp only
  split
  · intro l hl
    exact hend l hl
  · split
    · intro l hl
      simp at hl
    · split
      · intro l hl
        exact hend l hl
      · intro l hl
        simp only [List.mem_filter, Bool.and_eq_true] at hl
        obtain ⟨hll, ⟨hid, hsrc⟩, htgt⟩ := hl
        have hsrcMem : l.sourceNodeId ∈
            (List.foldl (fun st (startNode : NodeData) =>
              traverseGraph nodes links (searchDepth + 1) startNode.id
                { st with visitedNodesInPath := [] })
              ⟨[], [], []⟩
              (List.filter (fun node => matchesNode (parseSearchTerms searchTerm) tags node)
                nodes)).collectedNodes := by
          simpa using hsrc
        have htgtMem : l.targetNodeId ∈
            (List.foldl (fun st (startNode : NodeData) =>
              traverseGraph nodes links (searchDepth + 1) startNode.id
                { st with visitedNodesInPath := [] })
              ⟨[], [], []⟩
              (List.filter (fun node => matchesNode (parseSearchTerms searchTerm) tags node)
                nodes)).collectedNodes := by
          simpa using htgt
        obtain ⟨ms, hms, hmsid⟩ := find?_id_mem (hend l hll).1
        obtain ⟨mt, hmt, hmtid⟩ := find?_id_mem (hend l hll).2
        constructor
        · exact ⟨ms, List.mem_filterMap.mpr ⟨l.sourceNodeId, hsrcMem, hms⟩, hmsid⟩
        · exact ⟨mt, List.mem_filterMap.mpr ⟨l.targetNodeId, htgtMem, hmt⟩, hmtid⟩

/-- Witness for C4 on the spec §8 snapshot with search "c" and depth 1. -/
theorem traversal_result_closed_witness :
    (∀ l ∈ [fixAB, fixBC],
      (∃ n ∈ [fixA, fixB, fixC, fixD], n.id = l.sourceNodeId) ∧
      (∃ n ∈ [fixA, fixB, fixC, fixD], n.id = l.targetNodeId)) ∧
    (∀ l ∈ (filteredNodesAndLinks [fixA, fixB, fixC, fixD] [fixAB, fixBC] "c" 1 []).2,
      (∃ n ∈ (filteredNodesAndLinks [fixA, fixB, fixC, fixD] [fixAB, fixBC] "c" 1 []).1,
        n.id = l.sourceNodeId) ∧
      (∃ n ∈ (filteredNodesAndLinks [fixA, fixB, fixC, fixD] [fixAB, fixBC] "c" 1 []).1,
        n.id = l.targetNodeId)) :=
  ⟨by decide,
   traversal_result_closed [fixA, fixB, fixC, fixD] [fixAB, fixBC] "c" 1 [] (by decide)⟩

/-! ## Traversal state lemmas (shared by C3 and C1) -/

/-- The traversal restores `visitedNodesInPath` on exit (every node added to
the path set is deleted on backtrack). -/
theorem traverseGraph_visited_eq (allNodes : List NodeData) (allLinks : List LinkData) :
    ∀ (fuel : Nat) (sid : String) (st : TravState),
      (traverseGraph allNodes allLinks fuel sid st).visitedNodesInPath =
        st.visitedNodesInPath := by
  intro fuel
  induction fuel with
  | zero => intro sid st; rfl
  | succ fuel ih =>
    intro sid st
    unfold traverseGraph
    split
    · rfl
    · split
      · rfl
      · dsimp only
        have hfold := foldl_invariant
          (P := fun (b : TravState) =>
            b.visitedNodesInPath = sid :: st.visitedNodesInPath)
          (f := fun acc link =>
            let neighborId :=
              if link.sourceNodeId = sid then link.targetNodeId
              else link.sourceNodeId
            match allNodes.find? (fun n => n.id == neighborId) with
            | none => acc
            | some _ =>
              traverseGraph allNodes allLinks fuel neighborId
                { acc with collectedLinkIds := setAdd acc.collectedLinkIds link.id })
          (by
            intro b a hb
            dsimp only
            split
            · exact hb
            · rw [ih]; exact hb)
          (allLinks.filter (fun link =>
            link.sourceNodeId == sid || link.targetNodeId == sid))
          { visitedNodesInPath := sid :: st.visitedNodesInPath
            collectedNodes := setAdd st.collectedNodes sid
            collectedLinkIds := st.collectedLinkIds }
          rfl
        rw [hfold]
        exact List.erase_cons_head sid st.visitedNodesInPath

/-- The traversal only grows the collected node and link-id sets. -/
theorem traverseGraph_grow (allNodes : List NodeData) (allLinks : List LinkData) :
    ∀ (fuel : Nat) (sid : String) (st : TravState),
      st.collectedNodes ⊆ (traverseGraph allNodes allLinks fuel sid st).collectedNodes ∧
      st.collectedLinkIds ⊆ (traverseGraph allNodes allLinks fuel sid st).collectedLinkIds := by
  intro fuel
  induction fuel with
  | zero => intro sid st; exact ⟨fun _ h => h, fun _ h => h⟩
  | succ fuel ih =>
    intro sid st
    unfold traverseGraph
    split
    · exact ⟨fun _ h => h, fun _ h => h⟩
    · split
      · exact ⟨fun _ h => h, fun _ h => h⟩
      · dsimp only
        have hfold := foldl_invariant
          (P := fun (b : TravState) =>
            st.collectedNodes ⊆ b.collectedNodes ∧
            st.collectedLinkIds ⊆ b.collectedLinkIds)
          (f := fun acc link =>
            let neighborId :=
              if link.sourceNodeId = sid then link.targetNodeId
              else link.sourceNodeId
            match allNodes.find? (fun n => n.id == neighborId) with
            | none => acc
            | some _ =>
              traverseGraph allNodes allLinks fuel neighborId
                { acc with collectedLinkIds := setAdd acc.collectedLinkIds link.id })
          (by
            intro b a hb
            dsimp only
            split
            · exact hb
            · obtain ⟨h1, h2⟩ := ih (if a.sourceNodeId = sid then a.targetNodeId
                else a.sourceNodeId)
                { b with collectedLinkIds := setAdd b.collectedLinkIds a.id }
              refine ⟨fun x hx => h1 (hb.1 hx), fun x hx => h2 ?_⟩
              exact subset_setAdd _ _ (hb.2 hx))
          (allLinks.filter (fun link =>
            link.sourceNodeId == sid || link.targetNodeId == sid))
          { visitedNodesInPath := sid :: st.visitedNodesInPath
            collectedNodes := setAdd st.collectedNodes sid
            collectedLinkIds := st.collectedLinkIds }
          ⟨subset_setAdd _ _, fun _ h => h⟩
        exact hfold

/-- Monotonicity of the traversal in the depth bound: starting from related
states and a smaller fuel, the collections stay smaller. -/
theorem traverseGraph_mono (allNodes : List NodeData) (allLinks : List LinkData) :
    ∀ (fuel fuel' : Nat), fuel ≤ fuel' →
      ∀ (sid : String) (st1 st2 : TravState), TravLe st1 st2 →
        TravLe (traverseGraph allNodes allLinks fuel sid st1)
               (traverseGraph allNodes allLinks fuel' sid st2) := by
  intro fuel
  induction fuel with
  | zero =>
    intro fuel' _ sid st1 st2 h
    refine ⟨?_, ?_, ?_⟩
    · rw [traverseGraph_visited_eq, traverseGraph_visited_eq]
      exact h.1
    · exact fun x hx => (traverseGraph_grow allNodes allLinks fuel' sid st2).1 (h.2.1 hx)
    · exact fun x hx => (traverseGraph_grow allNodes allLinks fuel' sid st2).2 (h.2.2 hx)
  | succ fuel ih =>
    intro fuel' hle sid st1 st2 h
    obtain ⟨g', rfl⟩ : ∃ g', fuel' = g' + 1 := ⟨fuel' - 1, by omega⟩
    have hgle : fuel ≤ g' := by omega
    unfold traverseGraph
    rw [h.1]
    split
    · exact h
    · split
      · exact h
      · dsimp only
        have hfold := foldl_rel
          (R := TravLe)
          (f := fun acc link =>
            let neighborId :=
              if link.sourceNodeId = sid then link.targetNodeId
              else link.sourceNodeId
            match allNodes.find? (fun n => n.id == neighborId) with
            | none => acc
            | some _ =>
              traverseGraph allNodes allLinks fuel neighborId
                { acc with collectedLinkIds := setAdd acc.collectedLinkIds link.id })
          (g := fun acc link =>
            let neighborId :=
              if link.sourceNodeId = sid then link.targetNodeId
              else link.sourceNodeId
            match allNodes.find? (fun n => n.id == neighborId) with
            | none => acc
            | some _ =>
              traverseGraph allNodes allLinks g' neighborId
                { acc with collectedLinkIds := setAdd acc.collectedLinkIds link.id })
          (by
            intro b1 b2 a hb
            dsimp only
            cases hfind : allNodes.find? (fun n => n.id ==
                (if a.sourceNodeId = sid then a.targetNodeId else a.sourceNodeId)) with
            | none => simp only [hfind]; exact hb
            | some m =>
              simp only [hfind]
              exact ih g' hgle _ _ _ ⟨hb.1, hb.2.1, setAdd_subset_setAdd hb.2.2 a.id⟩)
          (allLinks.filter (fun link =>
            link.sourceNodeId == sid || link.targetNodeId == sid))
          { visitedNodesInPath := sid :: st2.visitedNodesInPath
            collectedNodes := setAdd st1.collectedNodes sid
            collectedLinkIds := st1.collectedLinkIds }
          { visitedNodesInPath := sid :: st2.visitedNodesInPath
            collectedNodes := setAdd st2.collectedNodes sid
            collectedLinkIds := st2.collectedLinkIds }
          ⟨rfl, setAdd_subset_setAdd h.2.1 sid, h.2.2⟩
        exact ⟨by rw [hfold.1], hfold.2.1, hfold.2.2⟩

/-! ## C3: the traversal node set grows with the depth bound -/

/-- C3: for every snapshot and predicate, the node set returned at depth
`d + 1` contains the node set returned at depth `d` (equivalently, depth `d`
contains depth `d - 1` for every `d ≥ 1`). -/
theorem traversal_nodes_monotone_in_depth (nodes : List NodeData)
    (links : List LinkData) (searchTerm : String) (tags : List String) (d : Nat) :
    ∀ n, n ∈ (filteredNodesAndLinks nodes links searchTerm d tags).1 →
      n ∈ (filteredNodesAndLinks nodes links searchTerm (d + 1) tags).1 := by
  unfold filteredNodesAndLinks
  dsimp only
  split
  · exact fun n h => h
  · split
    · exact fun n h => h
    · split
      · exact fun n h => h
      · intro n hn
        simp only [List.mem_filterMap] at hn ⊢
        obtain ⟨id, hid, hfind⟩ := hn
        refine ⟨id, ?_, hfind⟩
        have hfold := foldl_rel
          (R := TravLe)
          (f := fun st (startNode : NodeData) =>
            traverseGraph nodes links (d + 1) startNode.id
              { st with visitedNodesInPath := [] })
          (g := fun st (startNode : NodeData) =>
            traverseGraph nodes links (d + 1 + 1) startNode.id
              { st with visitedNodesInPath := [] })
          (by
            intro b1 b2 a hb
            exact traverseGraph_mono nodes links (d + 1) (d + 1 + 1) (by omega) a.id
              { b1 with visitedNodesInPath := [] }
              { b2 with visitedNodesInPath := [] }
              ⟨rfl, hb.2.1, hb.2.2⟩)
          (nodes.filter (fun node => matchesNode (parseSearchTerms searchTerm) tags node))
          ⟨[], [], []⟩ ⟨[], [], []⟩
          ⟨rfl, fun _ h => h, fun _ h => h⟩
        exact hfold.2.1 hid

/-- Witness for C3: on the spec §8 snapshot with search "c", node `fixB` is
in the depth-1 result, hence also in the depth-2 result. -/
theorem traversal_nodes_monotone_in_depth_witness :
    fixB ∈ (filteredNodesAndLinks [fixA, fixB, fixC, fixD] [fixAB, fixBC] "c" 1 []).1 ∧
    fixB ∈ (filteredNodesAndLinks [fixA, fixB, fixC, fixD] [fixAB, fixBC] "c" 2 []).1 :=
  ⟨by decide,
   traversal_nodes_monotone_in_depth [fixA, fixB, fixC, fixD] [fixAB, fixBC] "c" [] 1
     fixB (by decide)⟩

/-! ## C1: depth 0 (fuel 1) characterisation of the traversal -/

/-- At depth 0 (fuel 1) the traversal collects exactly its start node, and
the ids of all related links whose other endpoint exists — the recursive
neighbor visits are cut off by the depth guard after the link id is already
recorded. -/
theorem traverseGraph_fuel_one (nodes : List NodeData) (links : List LinkData)
    (sid : String) (st : TravState)
    (hfind : (nodes.find? (fun n => n.id == sid)).isSome = true)
    (hnv : sid ∉ st.visitedNodesInPath) :
    traverseGraph nodes links 1 sid st =
      { visitedNodesInPath := st.visitedNodesInPath
        collectedNodes := setAdd st.collectedNodes sid
        collectedLinkIds := (links.filter (fun link =>
            link.sourceNodeId == sid || link.targetNodeId == sid)).foldl
          (fun a link =>
            if (nodes.find? (fun n => n.id ==
                (if link.sourceNodeId = sid then link.targetNodeId
                 else link.sourceNodeId))).isSome
            then setAdd a link.id else a) st.collectedLinkIds } := by
  have hfold : ∀ (ls : List LinkData) (acc : TravState),
      ls.foldl (fun acc link =>
        let neighborId :=
          if link.sourceNodeId = sid then link.targetNodeId
          else link.sourceNodeId
        match nodes.find? (fun n => n.id == neighborId) with
        | none => acc
        | some _ =>
          traverseGraph nodes links 0 neighborId
            { acc with collectedLinkIds := setAdd acc.collectedLinkIds link.id }) acc =
      { acc with collectedLinkIds := ls.foldl (fun a link =>
          if (nodes.find? (fun n => n.id ==
              (if link.sourceNodeId = sid then link.targetNodeId
               else link.sourceNodeId))).isSome
          then setAdd a link.id else a) acc.collectedLinkIds } := by
    intro ls
    induction ls with
    | nil => intro acc; rfl
    | cons l ls ihl =>
      intro acc
      simp only [List.foldl_cons]
      cases hf : nodes.find? (fun n => n.id ==
          (if l.sourceNodeId = sid then l.targetNodeId else l.sourceNodeId)) with
      | none =>
        simp only [hf, Option.isSome_none, Bool.false_eq_true, if_false]
        exact ihl acc
      | some m =>
        simp only [hf, Option.isSome_some, if_true]
        exact ihl { acc with collectedLinkIds := setAdd acc.collectedLinkIds l.id }
  obtain ⟨m, hm⟩ := Option.isSome_iff_exists.mp hfind
  unfold traverseGraph
  rw [if_neg hnv, hm]
  dsimp only
  rw [hfold]
  simp [List.erase_cons_head]

/-- With unique node ids, looking a member node up by its id returns it. -/
theorem find?_eq_self {nodes : List NodeData} (hN : (nodes.map NodeData.id).Nodup) :
    ∀ {m : NodeData}, m ∈ nodes → nodes.find? (fun n => n.id == m.id) = some m := by
  induction nodes with
  | nil => intro m hm; simp at hm
  | cons h t ih =>
    intro m hm
    have hN' : (t.map NodeData.id).Nodup := (List.nodup_cons.mp (by simpa using hN)).2
    rcases List.mem_cons.mp hm with rfl | hmt
    · exact List.find?_cons_of_pos _ (by simp)
    · have hne : ¬(h.id == m.id) = true := by
        have h1 : h.id ∉ t.map NodeData.id := (List.nodup_cons.mp (by simpa using hN)).1
        have h2 : m.id ∈ t.map NodeData.id := List.mem_map_of_mem _ hmt
        simp only [beq_iff_eq]
        intro he
        exact h1 (he ▸ h2)
      rw [List.find?_cons_of_neg (p := fun n => n.id == m.id) t hne]
      exact ih hN' hmt

/-- Recovering nodes from their collected ids returns the original node list
when ids are unique. -/
theorem filterMap_find_ids {nodes : List NodeData} (hN : (nodes.map NodeData.id).Nodup) :
    ∀ (ms : List NodeData), (∀ m ∈ ms, m ∈ nodes) →
      (ms.map NodeData.id).filterMap (fun id => nodes.find? (fun n => n.id == id)) = ms := by
  intro ms
  induction ms with
  | nil => intro _; rfl
  | cons m ms ih =>
    intro hsub
    simp only [List.map_cons, List.filterMap_cons]
    rw [find?_eq_self hN (hsub m (List.mem_cons_self m ms))]
    rw [ih (fun x hx => hsub x (List.mem_cons_of_mem m hx))]

/-- Folding `setAdd` of fresh, pairwise distinct ids appends them in order. -/
theorem foldl_setAdd_ids :
    ∀ (ms : List NodeData) (C : List String), (∀ m ∈ ms, m.id ∉ C) →
      (ms.map NodeData.id).Nodup →
      ms.foldl (fun c m => setAdd c m.id) C = C ++ ms.map NodeData.id := by
  intro ms
  induction ms with
  | nil => intro C _ _; simp
  | cons m ms ih =>
    intro C hC hnd
    have hnd' : m.id ∉ ms.map NodeData.id ∧ (ms.map NodeData.id).Nodup := by
      simpa only [List.map_cons, List.nodup_cons] using hnd
    simp only [List.foldl_cons]
    have hm : setAdd C m.id = C ++ [m.id] := by
      unfold setAdd
      rw [if_neg (hC m (List.mem_cons_self m ms))]
    rw [hm, ih (C ++ [m.id]) ?_ hnd'.2]
    · simp
    · intro x hx
      simp only [List.mem_append, List.mem_singleton]
      rintro (hxc | hxm)
      · exact hC x (List.mem_cons_of_mem m hx) hxc
      · exact hnd'.1 (hxm ▸ List.mem_map_of_mem NodeData.id hx)

/-- The conditional `setAdd` fold over link ids only grows the accumulator. -/
theorem linkFold_mono (cond : LinkData → Bool) :
    ∀ (ls : List LinkData) (acc : List String),
      acc ⊆ ls.foldl (fun a x => if cond x then setAdd a x.id else a) acc := by
  intro ls
  induction ls with
  | nil => intro acc x hx; simpa using hx
  | cons l ls ihl =>
    intro acc x hx
    simp only [List.foldl_cons]
    refine ihl _ ?_
    split
    · exact subset_setAdd _ _ hx
    · exact hx

/-- A link whose condition holds contributes its id to the fold. -/
theorem linkFold_mem (cond : LinkData → Bool) {l : LinkData} :
    ∀ (ls : List LinkData) (acc : List String), l ∈ ls → cond l = true →
      l.id ∈ ls.foldl (fun a x => if cond x then setAdd a x.id else a) acc := by
  intro ls
  induction ls with
  | nil => intro acc hm; simp at hm
  | cons x ls ihl =>
    intro acc hm hc
    simp only [List.foldl_cons]
    rcases List.mem_cons.mp hm with rfl | hm'
    · refine linkFold_mono cond ls _ ?_
      rw [if_pos hc]
      exact mem_setAdd.mpr (Or.inr rfl)
    · exact ihl _ hm' hc

/-- Through the per-match traversal fold at depth 0 (fuel 1), the collected
node key list accumulates exactly the start ids, in order. -/
theorem startsFold_collected (nodes : List NodeData) (links : List LinkData) :
    ∀ (ms : List NodeData) (st : TravState), (∀ m ∈ ms, m ∈ nodes) →
      (ms.foldl (fun st (startNode : NodeData) =>
        traverseGraph nodes links 1 startNode.id
          { st with visitedNodesInPath := [] }) st).collectedNodes =
      ms.foldl (fun c m => setAdd c m.id) st.collectedNodes := by
  intro ms
  induction ms with
  | nil => intro st _; rfl
  | cons m ms ih =>
    intro st hsub
    simp only [List.foldl_cons]
    rw [ih _ (fun x hx => hsub x (List.mem_cons_of_mem m hx))]
    congr 1
    rw [traverseGraph_fuel_one nodes links m.id { st with visitedNodesInPath := [] }
      (by rw [List.find?_isSome]
          exact ⟨m, hsub m (List.mem_cons_self m ms), by simp⟩)
      (by simp)]

/-- Through the per-match traversal fold at depth 0 (fuel 1), every link
touching a start node whose other endpoint exists gets its id collected. -/
theorem startsFold_linkIds (nodes : List NodeData) (links : List LinkData) :
    ∀ (ms : List NodeData) (st : TravState), (∀ m ∈ ms, m ∈ nodes) →
      ∀ l ∈ links, ∀ m ∈ ms,
        (l.sourceNodeId == m.id || l.targetNodeId == m.id) = true →
        (nodes.find? (fun n => n.id ==
          (if l.sourceNodeId = m.id then l.targetNodeId else l.sourceNodeId))).isSome = true →
        l.id ∈ (ms.foldl (fun st (startNode : NodeData) =>
          traverseGraph nodes links 1 startNode.id
            { st with visitedNodesInPath := [] }) st).collectedLinkIds := by
  intro ms
  induction ms with
  | nil => intro st _ l _ m hm; simp at hm
  | cons m0 ms ih =>
    intro st hsub l hl m hm hc hf
    simp only [List.foldl_cons]
    rcases List.mem_cons.mp hm with rfl | hm'
    · have hstep : l.id ∈ (traverseGraph nodes links 1 m.id
          { st with visitedNodesInPath := [] }).collectedLinkIds := by
        rw [traverseGraph_fuel_one nodes links m.id { st with visitedNodesInPath := [] }
          (by rw [List.find?_isSome]
              exact ⟨m, hsub m (List.mem_cons_self m ms), by simp⟩)
          (by simp)]
        exact linkFold_mem _ _ _ (List.mem_filter.mpr ⟨hl, hc⟩) hf
      refine foldl_invariant
        (P := fun (b : TravState) => l.id ∈ b.collectedLinkIds)
        (f := fun st (startNode : NodeData) =>
          traverseGraph nodes links 1 startNode.id
            { st with visitedNodesInPath := [] })
        ?_ ms _ hstep
      intro b a hb
      exact (traverseGraph_grow nodes links 1 a.id
        { b with visitedNodesInPath := [] }).2 hb
    · exact ih _ (fun x hx => hsub x (List.mem_cons_of_mem m0 hx)) l hl m hm' hc hf

/-- C1 (amended): at depth 0 with an active predicate and unique node ids,
the traversal result consists of exactly the predicate-matching nodes, and of
exactly those edges whose BOTH endpoints are predicate-matching nodes (not
zero edges: an edge between two directly linked matching nodes is returned). -/
theorem depth_zero_matched_nodes_and_matched_edges (nodes : List NodeData)
    (links : List LinkData) (searchTerm : String) (tags : List String)
    (hN : (nodes.map NodeData.id).Nodup)
    (hactive : ¬(strTrim searchTerm = "" ∧ tags = [])) :
    (filteredNodesAndLinks nodes links searchTerm 0 tags).1 =
      nodes.filter (fun node => matchesNode (parseSearchTerms searchTerm) tags node) ∧
    (filteredNodesAndLinks nodes links searchTerm 0 tags).2 =
      links.filter (fun l =>
        ((nodes.filter (fun node =>
            matchesNode (parseSearchTerms searchTerm) tags node)).map
          NodeData.id).contains l.sourceNodeId &&
        ((nodes.filter (fun node =>
            matchesNode (parseSearchTerms searchTerm) tags node)).map
          NodeData.id).contains l.targetNodeId) := by
  set matched := nodes.filter
    (fun node => matchesNode (parseSearchTerms searchTerm) tags node) with hmdef
  have hsub : ∀ m ∈ matched, m ∈ nodes := fun m hm => List.mem_of_mem_filter hm
  have hmnod : (matched.map NodeData.id).Nodup :=
    List.Nodup.sublist (List.Sublist.map _ (List.filter_sublist nodes)) hN
  unfold filteredNodesAndLinks
  dsimp only
  rw [if_neg hactive]
  rw [← hmdef]
  by_cases hmt : matched = []
  · rw [if_pos ⟨hmt, not_and_or.mp hactive⟩]
    constructor
    · exact hmt.symm
    · simp [hmt]
  · rw [if_neg (fun h => hmt h.1), if_neg (fun h => hmt h.1)]
    simp only [Nat.zero_add]
    have hkeys : (matched.foldl (fun st (startNode : NodeData) =>
        traverseGraph nodes links 1 startNode.id
          { st with visitedNodesInPath := [] }) ⟨[], [], []⟩).collectedNodes =
        matched.map NodeData.id := by
      rw [startsFold_collected nodes links matched ⟨[], [], []⟩ hsub]
      rw [foldl_setAdd_ids matched [] (by simp) hmnod]
      simp
    constructor
    · rw [hkeys]
      exact filterMap_find_ids hN matched hsub
    · apply List.filter_congr
      intro l hl
      rw [hkeys]
      by_cases hsrc : l.sourceNodeId ∈ matched.map NodeData.id
      · by_cases htgt : l.targetNodeId ∈ matched.map NodeData.id
        · obtain ⟨m, hmm, hmid⟩ := List.mem_map.mp hsrc
          obtain ⟨m', hmm', hmid'⟩ := List.mem_map.mp htgt
          have hif : (if l.sourceNodeId = m.id then l.targetNodeId
              else l.sourceNodeId) = l.targetNodeId := if_pos hmid.symm
          have hIn : l.id ∈ (matched.foldl (fun st (startNode : NodeData) =>
              traverseGraph nodes links 1 startNode.id
                { st with visitedNodesInPath := [] }) ⟨[], [], []⟩).collectedLinkIds := by
            refine startsFold_linkIds nodes links matched ⟨[], [], []⟩ hsub l hl m hmm
              (by simp [hmid]) ?_
            rw [hif, List.find?_isSome]
            exact ⟨m', hsub m' hmm', by simp [hmid']⟩
          simp [hsrc, htgt, hIn]
        · simp [htgt]
      · simp [hsrc]

/-- Witness for C1 (amended): depth 0, search "x", two matching nodes linked
by one edge — the output is both nodes and that edge. -/
theorem depth_zero_matched_nodes_and_matched_edges_witness :
    ([fixMA, fixMB].map NodeData.id).Nodup ∧
    ¬(strTrim "x" = "" ∧ ([] : List String) = []) ∧
    (filteredNodesAndLinks [fixMA, fixMB] [fixAB] "x" 0 []).1 =
      [fixMA, fixMB].filter
        (fun node => matchesNode (parseSearchTerms "x") [] node) ∧
    (filteredNodesAndLinks [fixMA, fixMB] [fixAB] "x" 0 []).2 =
      [fixAB].filter (fun l =>
        (([fixMA, fixMB].filter (fun node =>
            matchesNode (parseSearchTerms "x") [] node)).map
          NodeData.id).contains l.sourceNodeId &&
        (([fixMA, fixMB].filter (fun node =>
            matchesNode (parseSearchTerms "x") [] node)).map
          NodeData.id).contains l.targetNodeId) :=
  ⟨by decide, by decide,
   (depth_zero_matched_nodes_and_matched_edges [fixMA, fixMB] [fixAB] "x" []
     (by decide) (by decide)).1,
   (depth_zero_matched_nodes_and_matched_edges [fixMA, fixMB] [fixAB] "x" []
     (by decide) (by decide)).2⟩

/-- Counterexample to C1 as stated: with search "x" (matching both nodes) and
depth 0, the output edge set is NOT empty — the edge between the two directly
linked matching nodes is returned. -/
theorem depth_zero_includes_edge_between_matches :
    ¬((filteredNodesAndLinks [fixMA, fixMB] [fixAB] "x" 0 []).2 = []) := by
  decide

/-! ## Hierarchical layout: adjacency build characterisation -/

/-- Counting with `p` splits along any second predicate `q`. -/
theorem countP_split {α : Type} (p q : α → Bool) :
    ∀ l : List α,
      l.countP p = (l.countP fun a => p a && q a) + (l.countP fun a => p a && !q a) := by
  intro l
  induction l with
  | nil => rfl
  | cons x l ih =>
    by_cases hp : p x <;> by_cases hq : q x <;>
      simp [List.countP_cons, hp, hq, ih] <;> omega

/-- Characterisation of the four adjacency structures built by the
`linksToConsider.forEach` fold, relative to an arbitrary initial value. -/
theorem buildFold_spec (mapIds : List String) :
    ∀ (links : List LinkData) (g : Adjacency) (k : String),
      ((links.foldl (fun g link =>
        if link.sourceNodeId ∈ mapIds ∧ link.targetNodeId ∈ mapIds then
          { adj := fun k =>
              if k = link.sourceNodeId then g.adj k ++ [link.targetNodeId] else g.adj k
            revAdj := fun k =>
              if k = link.targetNodeId then g.revAdj k ++ [link.sourceNodeId] else g.revAdj k
            inDegree := fun k =>
              if k = link.targetNodeId then g.inDegree k + 1 else g.inDegree k
            outDegree := fun k =>
              if k = link.sourceNodeId then g.outDegree k + 1 else g.outDegree k }
        else g) g).adj k =
        g.adj k ++ (links.filter (fun l =>
          decide (l.sourceNodeId ∈ mapIds ∧ l.targetNodeId ∈ mapIds) &&
          (l.sourceNodeId == k))).map LinkData.targetNodeId) ∧
      ((links.foldl (fun g link =>
        if link.sourceNodeId ∈ mapIds ∧ link.targetNodeId ∈ mapIds then
          { adj := fun k =>
              if k = link.sourceNodeId then g.adj k ++ [link.targetNodeId] else g.adj k
            revAdj := fun k =>
              if k = link.targetNodeId then g.revAdj k ++ [link.sourceNodeId] else g.revAdj k
            inDegree := fun k =>
              if k = link.targetNodeId then g.inDegree k + 1 else g.inDegree k
            outDegree := fun k =>
              if k = link.sourceNodeId then g.outDegree k + 1 else g.outDegree k }
        else g) g).revAdj k =
        g.revAdj k ++ (links.filter (fun l =>
          decide (l.sourceNodeId ∈ mapIds ∧ l.targetNodeId ∈ mapIds) &&
          (l.targetNodeId == k))).map LinkData.sourceNodeId) ∧
      ((links.foldl (fun g link =>
        if link.sourceNodeId ∈ mapIds ∧ link.targetNodeId ∈ mapIds then
          { adj := fun k =>
              if k = link.sourceNodeId then g.adj k ++ [link.targetNodeId] else g.adj k
            revAdj := fun k =>
              if k = link.targetNodeId then g.revAdj k ++ [link.sourceNodeId] else g.revAdj k
            inDegree := fun k =>
              if k = link.targetNodeId then g.inDegree k + 1 else g.inDegree k
            outDegree := fun k =>
              if k = link.sourceNodeId then g.outDegree k + 1 else g.outDegree k }
        else g) g).inDegree k =
        g.inDegree k + (links.countP (fun l =>
          decide (l.sourceNodeId ∈ mapIds ∧ l.targetNodeId ∈ mapIds) &&
          (l.targetNodeId == k)) : Int)) ∧
      ((links.foldl (fun g link =>
        if link.sourceNodeId ∈ mapIds ∧ link.targetNodeId ∈ mapIds then
          { adj := fun k =>
              if k = link.sourceNodeId then g.adj k ++ [link.targetNodeId] else g.adj k
            revAdj := fun k =>
              if k = link.targetNodeId then g.revAdj k ++ [link.sourceNodeId] else g.revAdj k
            inDegree := fun k =>
              if k = link.targetNodeId then g.inDegree k + 1 else g.inDegree k
            outDegree := fun k =>
              if k = link.sourceNodeId then g.outDegree k + 1 else g.outDegree k }
        else g) g).outDegree k =
        g.outDegree k + (links.countP (fun l =>
          decide (l.sourceNodeId ∈ mapIds ∧ l.targetNodeId ∈ mapIds) &&
          (l.sourceNodeId == k)) : Int)) := by
  intro links
  induction links with
  | nil =>
    intro g k
    simp
  | cons l ls ih =>
    intro g k
    by_cases hq : l.sourceNodeId ∈ mapIds ∧ l.targetNodeId ∈ mapIds
    · simp only [List.foldl_cons, if_pos hq]
      obtain ⟨h1, h2, h3, h4⟩ := ih
        { adj := fun k =>
            if k = l.sourceNodeId then g.adj k ++ [l.targetNodeId] else g.adj k
          revAdj := fun k =>
            if k = l.targetNodeId then g.revAdj k ++ [l.sourceNodeId] else g.revAdj k
          inDegree := fun k =>
            if k = l.targetNodeId then g.inDegree k + 1 else g.inDegree k
          outDegree := fun k =>
            if k = l.sourceNodeId then g.outDegree k + 1 else g.outDegree k } k
      refine ⟨?_, ?_, ?_, ?_⟩
      · rw [h1]
        dsimp only
        by_cases hk : k = l.sourceNodeId
        · subst hk
          simp [List.filter_cons, hq]
        · simp [List.filter_cons, hq, hk, Ne.symm hk]
      · rw [h2]
        dsimp only
        by_cases hk : k = l.targetNodeId
        · subst hk
          simp [List.filter_cons, hq]
        · simp [List.filter_cons, hq, hk, Ne.symm hk]
      · rw [h3]
        dsimp only
        by_cases hk : k = l.targetNodeId
        · subst hk
          simp [List.countP_cons, hq]
          push_cast
          omega
        · simp [List.countP_cons, hq, hk, Ne.symm hk]
      · rw [h4]
        dsimp only
        by_cases hk : k = l.sourceNodeId
        · subst hk
          simp [List.countP_cons, hq]
          push_cast
          omega
        · simp [List.countP_cons, hq, hk, Ne.symm hk]
    · simp only [List.foldl_cons, if_neg hq]
      obtain ⟨h1, h2, h3, h4⟩ := ih g k
      refine ⟨?_, ?_, ?_, ?_⟩
      · rw [h1]; simp [List.filter_cons, hq]
      · rw [h2]; simp [List.filter_cons, hq]
      · rw [h3]; simp [List.countP_cons, hq]
      · rw [h4]; simp [List.countP_cons, hq]

/-- `adj` of the built index. -/
theorem hierIndex_adj (nodes : List NodeData) (links : List LinkData) (k : String) :
    (hierIndex nodes links).adj k =
      (links.filter (fun l =>
        decide (l.sourceNodeId ∈ hierMapIds nodes ∧ l.targetNodeId ∈ hierMapIds nodes) &&
        (l.sourceNodeId == k))).map LinkData.targetNodeId := by
  have h := (buildFold_spec (hierMapIds nodes) links
    ⟨fun _ => [], fun _ => [], fun _ => 0, fun _ => 0⟩ k).1
  simpa [hierIndex, buildAdjacency] using h

/-- `revAdj` of the built index. -/
theorem hierIndex_revAdj (nodes : List NodeData) (links : List LinkData) (k : String) :
    (hierIndex nodes links).revAdj k =
      (links.filter (fun l =>
        decide (l.sourceNodeId ∈ hierMapIds nodes ∧ l.targetNodeId ∈ hierMapIds nodes) &&
        (l.targetNodeId == k))).map LinkData.sourceNodeId := by
  have h := (buildFold_spec (hierMapIds nodes) links
    ⟨fun _ => [], fun _ => [], fun _ => 0, fun _ => 0⟩ k).2.1
  simpa [hierIndex, buildAdjacency] using h

/-- `inDegree` of the built index. -/
theorem hierIndex_inDegree (nodes : List NodeData) (links : List LinkData) (k : String) :
    (hierIndex nodes links).inDegree k =
      (links.countP (fun l =>
        decide (l.sourceNodeId ∈ hierMapIds nodes ∧ l.targetNodeId ∈ hierMapIds nodes) &&
        (l.targetNodeId == k)) : Int) := by
  have h := (buildFold_spec (hierMapIds nodes) links
    ⟨fun _ => [], fun _ => [], fun _ => 0, fun _ => 0⟩ k).2.2.1
  simpa [hierIndex, buildAdjacency] using h

/-- `outDegree` of the built index. -/
theorem hierIndex_outDegree (nodes : List NodeData) (links : List LinkData) (k : String) :
    (hierIndex nodes links).outDegree k =
      (links.countP (fun l =>
        decide (l.sourceNodeId ∈ hierMapIds nodes ∧ l.targetNodeId ∈ hierMapIds nodes) &&
        (l.sourceNodeId == k)) : Int) := by
  have h := (buildFold_spec (hierMapIds nodes) links
    ⟨fun _ => [], fun _ => [], fun _ => 0, fun _ => 0⟩ k).2.2.2
  simpa [hierIndex, buildAdjacency] using h

/-! ## Kahn's algorithm: the dequeue step -/

/-- Effect of processing the successor list of a dequeued node: every
occurrence decrements its counter (no counter is hit below the number of its
remaining occurrences, so the `|| 1` falsy default never fires), and the
pushed nodes are exactly the occurring nodes whose counter reaches zero —
each pushed once. -/
theorem kahnProcess_spec (mapIds : List String) :
    ∀ (vs : List String) (t : String → Int),
      (∀ v ∈ vs, v ∈ mapIds) →
      (∀ v, (vs.count v : Int) ≤ t v) →
      (∀ v, (kahnProcess mapIds vs t).1 v = t v - vs.count v) ∧
      (kahnProcess mapIds vs t).2.Nodup ∧
      (∀ v, v ∈ (kahnProcess mapIds vs t).2 ↔
        v ∈ vs ∧ (kahnProcess mapIds vs t).1 v = 0) := by
  intro vs
  induction vs with
  | nil =>
    intro t _ _
    refine ⟨fun v => by simp [kahnProcess], by simp [kahnProcess], fun v => by simp [kahnProcess]⟩
  | cons v0 vs ih =>
    intro t hdom hcnt
    have hv0 : v0 ∈ mapIds := hdom v0 (List.mem_cons_self v0 vs)
    have hc0 : 1 ≤ t v0 := by
      have := hcnt v0
      rw [List.count_cons] at this
      simp at this
      omega
    have ht0 : ¬ t v0 = 0 := by omega
    have hstep : kahnProcess mapIds (v0 :: vs) t =
        (let nv := t v0 - 1
         let t' := fun k => if k = v0 then nv else t k
         let r := kahnProcess mapIds vs t'
         (r.1, (if nv = 0 then [v0] else []) ++ r.2)) := by
      unfold kahnProcess
      rw [if_pos hv0, if_neg ht0]
      cases vs <;> rfl
    set t' := fun k => if k = v0 then t v0 - 1 else t k with ht'
    have hdom' : ∀ v ∈ vs, v ∈ mapIds := fun v hv => hdom v (List.mem_cons_of_mem v0 hv)
    have hcnt' : ∀ v, (vs.count v : Int) ≤ t' v := by
      intro v
      have := hcnt v
      rw [List.count_cons] at this
      by_cases hv : v = v0
      · subst hv
        simp only [ht']
        simp at this ⊢
        omega
      · simp only [ht', if_neg (by exact fun h => hv h)]
        simp [fun h => hv (Eq.symm h)] at this
        omega
    obtain ⟨ihA, ihN, ihM⟩ := ih t' hdom' hcnt'
    rw [hstep]
    dsimp only
    refine ⟨?_, ?_, ?_⟩
    · intro v
      rw [ihA v]
      rw [List.count_cons]
      by_cases hv : v = v0
      · subst hv
        simp only [ht', if_pos rfl]
        simp
        omega
      · have hvv : v0 ≠ v := fun h => hv h.symm
        simp only [ht', if_neg hv]
        simp [hvv]
    · by_cases hnv : t v0 - 1 = 0
      · rw [if_pos hnv]
        have hv0vs : v0 ∉ vs := by
          intro hmem
          have h1 : 1 ≤ vs.count v0 := by
            have := List.count_pos_iff.mpr hmem
            omega
          have h2 := hcnt' v0
          simp only [ht', if_pos rfl] at h2
          omega
        have : v0 ∉ (kahnProcess mapIds vs t').2 := by
          intro hmem
          exact hv0vs ((ihM v0).mp hmem).1
        simpa [List.nodup_cons] using ⟨this, ihN⟩
      · rw [if_neg hnv]
        simpa using ihN
    · intro v
      have hr1 : ∀ w, (kahnProcess mapIds vs t').1 w = t' w - vs.count w := ihA
      by_cases hnv : t v0 - 1 = 0
      · rw [if_pos hnv]
        simp only [List.cons_append, List.nil_append, List.mem_cons]
        constructor
        · rintro (rfl | hmem)
          · refine ⟨Or.inl rfl, ?_⟩
            have hc := hcnt' v
            simp only [ht', if_pos rfl] at hc
            rw [hr1 v]
            simp only [ht', if_pos rfl]
            have : (0 : Int) ≤ (vs.count v : Int) := by positivity
            omega
          · obtain ⟨hvs, hz⟩ := (ihM v).mp hmem
            exact ⟨Or.inr hvs, hz⟩
        · rintro ⟨hmem, hz⟩
          rcases hmem with rfl | hvs
          · exact Or.inl rfl
          · exact Or.inr ((ihM v).mpr ⟨hvs, hz⟩)
      · rw [if_neg hnv]
        simp only [List.nil_append]
        constructor
        · intro hmem
          obtain ⟨hvs, hz⟩ := (ihM v).mp hmem
          exact ⟨List.mem_cons_of_mem v0 hvs, hz⟩
        · rintro ⟨hmem, hz⟩
          rcases List.mem_cons.mp hmem with rfl | hvs
          · by_cases hvv : v ∈ vs
            · exact (ihM v).mpr ⟨hvv, hz⟩
            · exfalso
              have hc0' : vs.count v = 0 := List.count_eq_zero.mpr hvv
              rw [hr1 v, hc0'] at hz
              simp only [ht', if_pos rfl] at hz
              simp at hz
              exact hnv hz
          · exact (ihM v).mpr ⟨hvs, hz⟩

/-! ## Kahn's algorithm: loop invariant machinery -/

/-- Processing `u` splits the pending count of `v` into the new pending count
and the number of map-internal `u → v` links. -/
theorem pendCount_append (mapIds : List String) (links : List LinkData)
    (P : List String) (u : String) (hu : u ∉ P) (v : String) :
    pendCount mapIds links P v =
      pendCount mapIds links (P ++ [u]) v +
      links.countP (fun l =>
        decide (l.sourceNodeId ∈ mapIds ∧ l.targetNodeId ∈ mapIds) &&
        (l.targetNodeId == v) && (l.sourceNodeId == u)) := by
  unfold pendCount
  rw [countP_split (q := fun l => l.sourceNodeId == u)
    (fun l =>
      decide (l.sourceNodeId ∈ mapIds ∧ l.targetNodeId ∈ mapIds) &&
      (l.targetNodeId == v) && decide (l.sourceNodeId ∉ P)) links]
  rw [Nat.add_comm]
  congr 1
  · apply List.countP_congr
    intro l _
    by_cases h1 : l.sourceNodeId ∈ mapIds ∧ l.targetNodeId ∈ mapIds <;>
      by_cases h2 : l.targetNodeId = v <;>
      by_cases h3 : l.sourceNodeId = u <;>
      by_cases h4 : l.sourceNodeId ∈ P <;>
      simp_all [List.mem_append]
  · apply List.countP_congr
    intro l _
    by_cases h1 : l.sourceNodeId ∈ mapIds ∧ l.targetNodeId ∈ mapIds <;>
      by_cases h2 : l.targetNodeId = v <;>
      by_cases h3 : l.sourceNodeId = u <;>
      by_cases h4 : l.sourceNodeId ∈ P <;>
      simp_all [List.mem_append]

/-- The multiplicity of `v` among the recorded successors of `u` is the
number of map-internal `u → v` links. -/
theorem count_adj (nodes : List NodeData) (links : List LinkData) (u v : String) :
    ((hierIndex nodes links).adj u).count v =
      links.countP (fun l =>
        decide (l.sourceNodeId ∈ hierMapIds nodes ∧ l.targetNodeId ∈ hierMapIds nodes) &&
        (l.targetNodeId == v) && (l.sourceNodeId == u)) := by
  rw [hierIndex_adj, List.count_eq_countP, List.countP_map, List.countP_filter]
  apply List.countP_congr
  intro l _
  by_cases h1 : l.sourceNodeId ∈ hierMapIds nodes ∧ l.targetNodeId ∈ hierMapIds nodes <;>
    by_cases h2 : l.targetNodeId = v <;>
    by_cases h3 : l.sourceNodeId = u <;>
    simp_all [Function.comp]

/-- Recorded successors lie in the map. -/
theorem adj_mem_mapIds (nodes : List NodeData) (links : List LinkData) {u v : String}
    (h : v ∈ (hierIndex nodes links).adj u) : v ∈ hierMapIds nodes := by
  rw [hierIndex_adj] at h
  obtain ⟨l, hl, rfl⟩ := List.mem_map.mp h
  have := List.mem_filter.mp hl
  simp only [Bool.and_eq_true, decide_eq_true_eq] at this
  exact this.2.1.2

/-- Recorded predecessors lie in the map. -/
theorem revAdj_mem_mapIds (nodes : List NodeData) (links : List LinkData) {u v : String}
    (h : v ∈ (hierIndex nodes links).revAdj u) : v ∈ hierMapIds nodes := by
  rw [hierIndex_revAdj] at h
  obtain ⟨l, hl, rfl⟩ := List.mem_map.mp h
  have := List.mem_filter.mp hl
  simp only [Bool.and_eq_true, decide_eq_true_eq] at this
  exact this.2.1.1

/-- A two-element sublist splits the ambient list in order. -/
theorem sublist_pair_split {α : Type} {a b : α} :
    ∀ {l : List α}, [a, b].Sublist l → ∃ l1 l2 l3, l = l1 ++ a :: l2 ++ b :: l3 := by
  intro l
  induction l with
  | nil => intro h; cases h
  | cons x l ih =>
    intro h
    cases h with
    | cons _ h' =>
      obtain ⟨l1, l2, l3, rfl⟩ := ih h'
      exact ⟨x :: l1, l2, l3, rfl⟩
    | cons₂ _ h' =>
      obtain ⟨l2, l3, rfl⟩ := List.append_of_mem (List.singleton_sublist.mp h')
      exact ⟨[], l2, l3, rfl⟩

/-- A duplicate-free list included in a duplicate-free list is no longer. -/
theorem nodup_length_le {l m : List String} (hl : l.Nodup) (hm : m.Nodup)
    (hsub : ∀ x ∈ l, x ∈ m) : l.length ≤ m.length := by
  rw [← List.toFinset_card_of_nodup hl, ← List.toFinset_card_of_nodup hm]
  apply Finset.card_le_card
  intro x hx
  rw [List.mem_toFinset] at hx
  rw [List.mem_toFinset]
  exact hsub x hx

/-- An exhausted queue turns the invariant into the final facts about the
produced topological order. -/
theorem kahnInv_final (mapIds : List String) (links : List LinkData)
    (t : String → Int) (topo : List String)
    (h : KahnInv mapIds links t [] topo) :
    topo.Nodup ∧ (∀ x ∈ topo, x ∈ mapIds) ∧
    (∀ v ∈ mapIds, (v ∈ topo ↔ pendCount mapIds links topo v = 0)) ∧
    (∀ l ∈ links, l.sourceNodeId ∈ mapIds → l.targetNodeId ∈ mapIds →
      l.targetNodeId ∈ topo → [l.sourceNodeId, l.targetNodeId].Sublist topo) := by
  obtain ⟨hnd, hsub, _, hmem, hord⟩ := h
  rw [List.append_nil] at hnd hsub
  refine ⟨hnd, hsub, ?_, hord⟩
  intro v hv
  have := hmem v hv
  rwa [List.append_nil] at this

/-- Main invariant argument for the Kahn loop: starting from a state
satisfying `KahnInv` with enough fuel (the queue never repeats an id, so
`mapIds.length` dequeues always suffice), the produced order is
duplicate-free, map-internal, contains exactly the ids whose in-edges were
exhausted, and places every recorded edge's source before its target. -/
theorem kahnLoop_spec (nodes : List NodeData) (links : List LinkData) :
    ∀ (fuel : Nat) (t : String → Int) (remaining topo : List String),
      KahnInv (hierMapIds nodes) links t remaining topo →
      (hierMapIds nodes).length ≤ fuel + topo.length →
      ∀ T, T = kahnLoop (hierMapIds nodes) (hierIndex nodes links).adj
        fuel t remaining topo →
        T.Nodup ∧ (∀ x ∈ T, x ∈ hierMapIds nodes) ∧
        (∀ v ∈ hierMapIds nodes,
          (v ∈ T ↔ pendCount (hierMapIds nodes) links T v = 0)) ∧
        (∀ l ∈ links, l.sourceNodeId ∈ hierMapIds nodes →
          l.targetNodeId ∈ hierMapIds nodes →
          l.targetNodeId ∈ T → [l.sourceNodeId, l.targetNodeId].Sublist T) := by
  have hmidsnd : (hierMapIds nodes).Nodup := by
    unfold hierMapIds jsMapKeys
    have : ∀ (ns : List NodeData) (acc : List String), acc.Nodup →
        (ns.foldl (fun acc n => if n.id ∈ acc then acc else acc ++ [n.id]) acc).Nodup := by
      intro ns
      induction ns with
      | nil => intro acc h; exact h
      | cons n ns ih =>
        intro acc h
        simp only [List.foldl_cons]
        split
        · exact ih acc h
        · refine ih _ ?_
          rename_i hn
          simp [List.nodup_append, h, hn]
    exact this nodes [] List.nodup_nil
  intro fuel
  induction fuel with
  | zero =>
    intro t remaining topo hinv hlen T hT
    have hre : remaining = [] := by
      obtain ⟨hnd, hsub, _, _, _⟩ := hinv
      have h1 := nodup_length_le hnd hmidsnd hsub
      rw [List.length_append] at h1
      cases remaining with
      | nil => rfl
      | cons a b => simp at h1; omega
    subst hre
    have hfin := kahnInv_final (hierMapIds nodes) links t topo hinv
    rw [hT]
    exact hfin
  | succ fuel ih =>
    intro t remaining topo hinv hlen T hT
    cases remaining with
    | nil =>
      have hfin := kahnInv_final (hierMapIds nodes) links t topo hinv
      rw [hT]
      exact hfin
    | cons u rest =>
      obtain ⟨hnd, hsub, hcount, hmemiff, hord⟩ := hinv
      have huIn : u ∈ hierMapIds nodes := hsub u (by simp)
      have huNotTopo : u ∉ topo := by
        rw [List.nodup_append] at hnd
        exact fun h => (hnd.2.2 h) (by simp)
      have huNotRest : u ∉ rest := by
        rw [List.nodup_append, List.nodup_cons] at hnd
        exact hnd.2.1.1
      have hvs_dom : ∀ v ∈ (hierIndex nodes links).adj u, v ∈ hierMapIds nodes :=
        fun v hv => adj_mem_mapIds nodes links hv
      have hedge : ∀ v, (((hierIndex nodes links).adj u).count v : Int) =
          (links.countP (fun l =>
            decide (l.sourceNodeId ∈ hierMapIds nodes ∧
              l.targetNodeId ∈ hierMapIds nodes) &&
            (l.targetNodeId == v) && (l.sourceNodeId == u)) : Int) := by
        intro v
        exact_mod_cast count_adj nodes links u v
      have hsplit : ∀ v, pendCount (hierMapIds nodes) links topo v =
          pendCount (hierMapIds nodes) links (topo ++ [u]) v +
          links.countP (fun l =>
            decide (l.sourceNodeId ∈ hierMapIds nodes ∧
              l.targetNodeId ∈ hierMapIds nodes) &&
            (l.targetNodeId == v) && (l.sourceNodeId == u)) :=
        pendCount_append (hierMapIds nodes) links topo u huNotTopo
      have hvs_cnt : ∀ v, ((((hierIndex nodes links).adj u).count v : Nat) : Int) ≤ t v := by
        intro v
        rw [hcount v, hedge v]
        have := hsplit v
        omega
      obtain ⟨pA, pN, pM⟩ := kahnProcess_spec (hierMapIds nodes)
        ((hierIndex nodes links).adj u) t hvs_dom hvs_cnt
      have ht' : ∀ v, (kahnProcess (hierMapIds nodes) ((hierIndex nodes links).adj u) t).1 v =
          (pendCount (hierMapIds nodes) links (topo ++ [u]) v : Int) := by
        intro v
        rw [pA v, hcount v]
        have h1 := hsplit v
        have h2 := hedge v
        omega
      have hpushVm : ∀ v ∈ (kahnProcess (hierMapIds nodes)
          ((hierIndex nodes links).adj u) t).2, v ∈ hierMapIds nodes := by
        intro v hv
        exact hvs_dom v ((pM v).mp hv).1
      have hpushNotQ : ∀ v ∈ (kahnProcess (hierMapIds nodes)
          ((hierIndex nodes links).adj u) t).2, v ∉ topo ++ u :: rest := by
        intro v hv hvq
        obtain ⟨hvvs, hvz⟩ := (pM v).mp hv
        have hc1 : 1 ≤ ((hierIndex nodes links).adj u).count v := by
          rw [Nat.succ_le]
          exact List.count_pos_iff.mpr hvvs
        have hp0 : pendCount (hierMapIds nodes) links topo v = 0 :=
          (hmemiff v (hvs_dom v hvvs)).mp hvq
        have h1 := hsplit v
        have h2 := hedge v
        omega
      -- new invariant
      have hinv' : KahnInv (hierMapIds nodes) links
          (kahnProcess (hierMapIds nodes) ((hierIndex nodes links).adj u) t).1
          (rest ++ (kahnProcess (hierMapIds nodes) ((hierIndex nodes links).adj u) t).2)
          (topo ++ [u]) := by
        refine ⟨?_, ?_, ?_, ?_, ?_⟩
        · have heq : (topo ++ [u]) ++ (rest ++ (kahnProcess (hierMapIds nodes)
              ((hierIndex nodes links).adj u) t).2) =
              (topo ++ u :: rest) ++ (kahnProcess (hierMapIds nodes)
              ((hierIndex nodes links).adj u) t).2 := by
            simp
          rw [heq, List.nodup_append]
          exact ⟨hnd, pN, fun a ha => fun hb => hpushNotQ a hb ha⟩
        · intro x hx
          rcases List.mem_append.mp hx with hx1 | hx2
          · rcases List.mem_append.mp hx1 with hxa | hxb
            · exact hsub x (List.mem_append_left _ hxa)
            · rw [List.mem_singleton] at hxb
              exact hxb ▸ huIn
          · rcases List.mem_append.mp hx2 with hxa | hxb
            · exact hsub x (by simp [hxa])
            · exact hpushVm x hxb
        · exact ht'
        · intro v hv
          constructor
          · intro hvq
            rcases List.mem_append.mp hvq with hv1 | hv2
            · rcases List.mem_append.mp hv1 with hva | hvb
              · have hp0 : pendCount (hierMapIds nodes) links topo v = 0 :=
                  (hmemiff v hv).mp (List.mem_append_left _ hva)
                have := hsplit v
                omega
              · rw [List.mem_singleton] at hvb
                subst hvb
                have hp0 : pendCount (hierMapIds nodes) links topo v = 0 :=
                  (hmemiff v hv).mp (by simp)
                have := hsplit v
                omega
            · rcases List.mem_append.mp hv2 with hva | hvb
              · have hp0 : pendCount (hierMapIds nodes) links topo v = 0 :=
                  (hmemiff v hv).mp (by simp [hva])
                have := hsplit v
                omega
              · have := ht' v
                have h0 := ((pM v).mp hvb).2
                omega
          · intro hp0
            by_cases hold : pendCount (hierMapIds nodes) links topo v = 0
            · have hvq := (hmemiff v hv).mpr hold
              rcases List.mem_append.mp hvq with hva | hvb
              · exact List.mem_append_left _ (List.mem_append_left _ hva)
              · rcases List.mem_cons.mp hvb with rfl | hvc
                · exact List.mem_append_left _ (List.mem_append_right _ (by simp))
                · exact List.mem_append_right _ (List.mem_append_left _ hvc)
            · have h1 := hsplit v
              have hcp : 1 ≤ ((hierIndex nodes links).adj u).count v := by
                have h2 := hedge v
                omega
              have hvvs : v ∈ (hierIndex nodes links).adj u :=
                List.count_pos_iff.mp (by omega)
              have hvz : (kahnProcess (hierMapIds nodes)
                  ((hierIndex nodes links).adj u) t).1 v = 0 := by
                rw [ht' v]
                omega
              have := (pM v).mpr ⟨hvvs, hvz⟩
              exact List.mem_append_right _ (List.mem_append_right _ this)
        · intro l hl hls hlt hmem
          rcases List.mem_append.mp hmem with htopo | hu
          · exact (hord l hl hls hlt htopo).trans (List.sublist_append_left topo [u])
          · rw [List.mem_singleton] at hu
            have hp0 : pendCount (hierMapIds nodes) links topo u = 0 :=
              (hmemiff u huIn).mp (by simp)
            have hsrc : l.sourceNodeId ∈ topo := by
              by_contra hns
              have : ¬(decide (l.sourceNodeId ∈ hierMapIds nodes ∧
                  l.targetNodeId ∈ hierMapIds nodes) &&
                  (l.targetNodeId == u) && decide (l.sourceNodeId ∉ topo)) = true :=
                List.countP_eq_zero.mp hp0 l hl
              simp only [Bool.and_eq_true, decide_eq_true_eq, beq_iff_eq] at this
              exact this ⟨⟨⟨hls, hlt⟩, hu⟩, hns⟩
            rw [hu]
            have h1 : [l.sourceNodeId].Sublist topo := List.singleton_sublist.mpr hsrc
            have h2 : [u].Sublist [u] := List.Sublist.refl [u]
            exact h1.append h2
      have hlen' : (hierMapIds nodes).length ≤ fuel + (topo ++ [u]).length := by
        rw [List.length_append]
        simp only [List.length_singleton]
        omega
      have hT' : T = kahnLoop (hierMapIds nodes) (hierIndex nodes links).adj fuel
          (kahnProcess (hierMapIds nodes) ((hierIndex nodes links).adj u) t).1
          (rest ++ (kahnProcess (hierMapIds nodes) ((hierIndex nodes links).adj u) t).2)
          (topo ++ [u]) := hT
      exact ih (kahnProcess (hierMapIds nodes) ((hierIndex nodes links).adj u) t).1
        (rest ++ (kahnProcess (hierMapIds nodes) ((hierIndex nodes links).adj u) t).2)
        (topo ++ [u]) hinv' hlen' T hT'

/-! ## The produced topological order -/

/-- Membership in the layout map keys. -/
theorem mem_hierMapIds (nodes : List NodeData) (id : String) :
    id ∈ hierMapIds nodes ↔ ∃ n ∈ nodes, n.id = id := by
  unfold hierMapIds jsMapKeys
  have : ∀ (ns : List NodeData) (acc : List String),
      (id ∈ ns.foldl (fun acc n => if n.id ∈ acc then acc else acc ++ [n.id]) acc ↔
        id ∈ acc ∨ ∃ n ∈ ns, n.id = id) := by
    intro ns
    induction ns with
    | nil => intro acc; simp
    | cons n ns ih =>
      intro acc
      simp only [List.foldl_cons]
      split
      · rw [ih acc]
        rename_i hn
        constructor
        · rintro (h | h)
          · exact Or.inl h
          · exact Or.inr (by simpa using Or.inr h)
        · rintro (h | h)
          · exact Or.inl h
          · rcases (by simpa using h : n.id = id ∨ ∃ m ∈ ns, m.id = id) with rfl | h'
            · exact Or.inl hn
            · exact Or.inr h'
      · rw [ih (acc ++ [n.id])]
        constructor
        · rintro (h | h)
          · rcases List.mem_append.mp h with h | h
            · exact Or.inl h
            · rw [List.mem_singleton] at h
              exact Or.inr ⟨n, List.mem_cons_self n ns, h.symm⟩
          · obtain ⟨m, hm, hmid⟩ := h
            exact Or.inr ⟨m, List.mem_cons_of_mem n hm, hmid⟩
        · rintro (h | h)
          · exact Or.inl (List.mem_append_left _ h)
          · obtain ⟨m, hm, hmid⟩ := h
            rcases List.mem_cons.mp hm with rfl | hm'
            · exact Or.inl (List.mem_append_right _ (List.mem_singleton.mpr hmid.symm))
            · exact Or.inr ⟨m, hm', hmid⟩
  rw [this nodes []]
  simp

/-- The initial state of the Kahn loop satisfies the invariant, so the
produced `topoOrder` is duplicate-free, map-internal, contains exactly the
ids whose in-edges are exhausted, and orders sources before targets. -/
theorem hierTopoOrder_spec (nodes : List NodeData) (links : List LinkData) :
    (hierTopoOrder nodes links).Nodup ∧
    (∀ x ∈ hierTopoOrder nodes links, x ∈ hierMapIds nodes) ∧
    (∀ v ∈ hierMapIds nodes, (v ∈ hierTopoOrder nodes links ↔
      pendCount (hierMapIds nodes) links (hierTopoOrder nodes links) v = 0)) ∧
    (∀ l ∈ links, l.sourceNodeId ∈ hierMapIds nodes →
      l.targetNodeId ∈ hierMapIds nodes →
      l.targetNodeId ∈ hierTopoOrder nodes links →
      [l.sourceNodeId, l.targetNodeId].Sublist (hierTopoOrder nodes links)) := by
  have hmidsnd : (hierMapIds nodes).Nodup := by
    unfold hierMapIds jsMapKeys
    have : ∀ (ns : List NodeData) (acc : List String), acc.Nodup →
        (ns.foldl (fun acc n => if n.id ∈ acc then acc else acc ++ [n.id]) acc).Nodup := by
      intro ns
      induction ns with
      | nil => intro acc h; exact h
      | cons n ns ih =>
        intro acc h
        simp only [List.foldl_cons]
        split
        · exact ih acc h
        · refine ih _ ?_
          rename_i hn
          simp [List.nodup_append, h, hn]
    exact this nodes [] List.nodup_nil
  have hinv0 : KahnInv (hierMapIds nodes) links (hierIndex nodes links).inDegree
      (hierRootNodes nodes links) [] := by
    refine ⟨?_, ?_, ?_, ?_, ?_⟩
    · simp only [List.nil_append]
      exact List.Nodup.sublist (List.filter_sublist _) hmidsnd
    · intro x hx
      simp only [List.nil_append] at hx
      exact List.mem_of_mem_filter hx
    · intro v
      rw [hierIndex_inDegree]
      unfold pendCount
      congr 1
      apply List.countP_congr
      intro l _
      simp
    · intro v hv
      simp only [List.nil_append]
      unfold hierRootNodes
      rw [List.mem_filter]
      have h1 : (hierIndex nodes links).inDegree v =
          (pendCount (hierMapIds nodes) links [] v : Int) := by
        rw [hierIndex_inDegree]
        unfold pendCount
        congr 1
        apply List.countP_congr
        intro l _
        simp
      constructor
      · rintro ⟨_, h⟩
        simp only [decide_eq_true_eq] at h
        omega
      · intro h
        refine ⟨hv, ?_⟩
        simp only [decide_eq_true_eq]
        omega
    · intro l _ _ _ h
      simp at h
  have := kahnLoop_spec nodes links (hierMapIds nodes).length
    (hierIndex nodes links).inDegree (hierRootNodes nodes links) [] hinv0
    (by simp) (hierTopoOrder nodes links) rfl
  exact this

/-- Completeness of the topological pass on acyclic snapshots: if a ranking
function orders every map-internal edge strictly, every map id is dequeued. -/
theorem hierTopoOrder_complete (nodes : List NodeData) (links : List LinkData)
    (rank : String → Nat)
    (hrank : ∀ l ∈ links, l.sourceNodeId ∈ hierMapIds nodes →
      l.targetNodeId ∈ hierMapIds nodes → rank l.sourceNodeId < rank l.targetNodeId) :
    ∀ v ∈ hierMapIds nodes, v ∈ hierTopoOrder nodes links := by
  obtain ⟨_, _, hmem, _⟩ := hierTopoOrder_spec nodes links
  have main : ∀ n, ∀ v ∈ hierMapIds nodes, rank v < n → v ∈ hierTopoOrder nodes links := by
    intro n
    induction n with
    | zero => intro v _ h; omega
    | succ n ihn =>
      intro v hv hr
      by_contra hvT
      have hp : pendCount (hierMapIds nodes) links (hierTopoOrder nodes links) v ≠ 0 :=
        fun h => hvT ((hmem v hv).mpr h)
      obtain ⟨l, hl, hpred⟩ := List.countP_pos_iff.mp (Nat.pos_of_ne_zero hp)
      simp only [Bool.and_eq_true, decide_eq_true_eq, beq_iff_eq] at hpred
      obtain ⟨⟨⟨hls, hlt⟩, hltv⟩, hsrc⟩ := hpred
      have hrk := hrank l hl hls hlt
      rw [hltv] at hrk
      exact hsrc (ihn l.sourceNodeId hls (by omega))
  intro v hv
  exact main (rank v + 1) v hv (by omega)

/-! ## The reverse-order layer computation -/

/-- `stepLayer` only writes the processed id. -/
theorem stepLayer_ne {g : Adjacency} {mapIds : List String} {layer : String → Int}
    {u k : String} (h : k ≠ u) : stepLayer g mapIds layer u k = layer k := by
  unfold stepLayer
  split
  · simp [h]
  · simp [h]

/-- A fold of `stepLayer` over ids not containing `k` leaves `layer k`. -/
theorem foldl_stepLayer_notmem (g : Adjacency) (mapIds : List String) {k : String} :
    ∀ (S : List String) (layer : String → Int), k ∉ S →
      S.foldl (fun layer u => stepLayer g mapIds layer u) layer k = layer k := by
  intro S
  induction S with
  | nil => intro layer _; rfl
  | cons u S ih =>
    intro layer hk
    simp only [List.foldl_cons]
    rw [ih _ (fun h => hk (List.mem_cons_of_mem u h))]
    exact stepLayer_ne (fun h => hk (h ▸ List.mem_cons_self u S))

/-- The `maxChild` fold dominates any lower bound of its initial value. -/
theorem foldl_maxChild_ge_init (mapIds : List String) (layer : String → Int) :
    ∀ (vs : List String) (m m' : Int), m ≤ m' →
      m ≤ vs.foldl (fun m v => if v ∈ mapIds then max m (layer v) else m) m' := by
  intro vs
  induction vs with
  | nil => intro m m' h; simpa using h
  | cons v vs ih =>
    intro m m' h
    simp only [List.foldl_cons]
    refine ih m _ ?_
    split
    · exact le_trans h (le_max_left m' (layer v))
    · exact h

/-- The `maxChild` fold dominates the layer of every map-internal member. -/
theorem foldl_maxChild_ge_mem (mapIds : List String) (layer : String → Int) :
    ∀ (vs : List String) (m : Int) {v : String}, v ∈ vs → v ∈ mapIds →
      layer v ≤ vs.foldl (fun m v => if v ∈ mapIds then max m (layer v) else m) m := by
  intro vs
  induction vs with
  | nil => intro m v hv; simp at hv
  | cons w vs ih =>
    intro m v hv hvm
    simp only [List.foldl_cons]
    rcases List.mem_cons.mp hv with rfl | hv'
    · refine foldl_maxChild_ge_init mapIds layer vs _ _ ?_
      rw [if_pos hvm]
      exact le_max_right m (layer v)
    · exact ih _ hv' hvm

/-- Layers stay non-negative along the reverse pass. -/
theorem foldl_stepLayer_nonneg (g : Adjacency) (mapIds : List String) :
    ∀ (S : List String) (layer : String → Int), (∀ k, 0 ≤ layer k) →
      ∀ k, 0 ≤ S.foldl (fun layer u => stepLayer g mapIds layer u) layer k := by
  intro S
  induction S with
  | nil => intro layer h k; exact h k
  | cons u S ih =>
    intro layer h k
    simp only [List.foldl_cons]
    refine ih _ ?_ k
    intro j
    unfold stepLayer
    split
    · dsimp only
      split
      · omega
      · exact h j
    · dsimp only
      split
      · split
        · omega
        · rename_i hmc
          have := foldl_maxChild_ge_init mapIds layer (g.adj u) (-1) (-1) le_rfl
          omega
      · exact h j

/-- Value of the final layer of an id occurring once, split at its step. -/
theorem foldl_stepLayer_split (g : Adjacency) (mapIds : List String)
    (P S : List String) (u : String) (hu : u ∉ S) (l0 : String → Int) :
    ((P ++ u :: S).foldl (fun layer v => stepLayer g mapIds layer v) l0) u =
      stepLayer g mapIds (P.foldl (fun layer v => stepLayer g mapIds layer v) l0) u u := by
  rw [List.foldl_append, List.foldl_cons]
  exact foldl_stepLayer_notmem g mapIds S _ hu

/-- The running-maximum fold of `maxLayerRTL` dominates lower bounds of its
initial value. -/
theorem foldl_runmax_ge_init (f : String → Int) :
    ∀ (ids : List String) (m m' : Int), m ≤ m' →
      m ≤ ids.foldl (fun m id => if f id > m then f id else m) m' := by
  intro ids
  induction ids with
  | nil => intro m m' h; simpa using h
  | cons i ids ih =>
    intro m m' h
    simp only [List.foldl_cons]
    refine ih m _ ?_
    split
    · omega
    · exact h

/-- The running-maximum fold dominates every member's value. -/
theorem foldl_runmax_ge_mem (f : String → Int) :
    ∀ (ids : List String) (m : Int) {v : String}, v ∈ ids →
      f v ≤ ids.foldl (fun m id => if f id > m then f id else m) m := by
  intro ids
  induction ids with
  | nil => intro m v hv; simp at hv
  | cons i ids ih =>
    intro m v hv
    simp only [List.foldl_cons]
    rcases List.mem_cons.mp hv with rfl | hv'
    · refine foldl_runmax_ge_init f ids _ _ ?_
      split <;> omega
    · exact ih _ hv'

/-- Every layer value is non-negative. -/
theorem hierLayerRTL_nonneg (nodes : List NodeData) (links : List LinkData)
    (k : String) : 0 ≤ hierLayerRTL nodes links k := by
  unfold hierLayerRTL
  exact foldl_stepLayer_nonneg _ _ _ _ (fun _ => le_rfl) k

/-- `maxLayerRTL` dominates the layer of every map id, and is non-negative. -/
theorem hierMaxLayerRTL_ge (nodes : List NodeData) (links : List LinkData) :
    0 ≤ hierMaxLayerRTL nodes links ∧
    ∀ v ∈ hierMapIds nodes, hierLayerRTL nodes links v ≤ hierMaxLayerRTL nodes links := by
  unfold hierMaxLayerRTL
  constructor
  · exact foldl_runmax_ge_init _ _ 0 0 le_rfl
  · intro v hv
    exact foldl_runmax_ge_mem _ _ 0 hv

/-- A dequeued node with out-degree `0` is assigned layer `0`. -/
theorem hierLayerRTL_sink (nodes : List NodeData) (links : List LinkData) {w : String}
    (hw : w ∈ hierTopoOrder nodes links)
    (hod : (hierIndex nodes links).outDegree w = 0) :
    hierLayerRTL nodes links w = 0 := by
  obtain ⟨hnd, _, _, _⟩ := hierTopoOrder_spec nodes links
  have hwR : w ∈ (hierTopoOrder nodes links).reverse := List.mem_reverse.mpr hw
  obtain ⟨P, S, hPS⟩ := List.append_of_mem hwR
  have hndR : ((hierTopoOrder nodes links).reverse).Nodup := List.nodup_reverse.mpr hnd
  rw [hPS] at hndR
  have hwS : w ∉ S := by
    rw [List.nodup_middle] at hndR
    have := (List.nodup_cons.mp hndR).1
    exact fun h => this (List.mem_append_right _ h)
  unfold hierLayerRTL
  rw [hPS, foldl_stepLayer_split _ _ P S w hwS]
  unfold stepLayer
  rw [if_pos hod]
  simp

/-- Along a map-internal edge whose target was dequeued, the source's layer
strictly exceeds the target's. -/
theorem hierLayerRTL_edge (nodes : List NodeData) (links : List LinkData)
    {l : LinkData} (hl : l ∈ links)
    (hls : l.sourceNodeId ∈ hierMapIds nodes)
    (hlt : l.targetNodeId ∈ hierMapIds nodes)
    (htT : l.targetNodeId ∈ hierTopoOrder nodes links) :
    hierLayerRTL nodes links l.targetNodeId < hierLayerRTL nodes links l.sourceNodeId := by
  obtain ⟨hnd, _, _, hord⟩ := hierTopoOrder_spec nodes links
  have hpair := hord l hl hls hlt htT
  have hpairR : [l.targetNodeId, l.sourceNodeId].Sublist
      (hierTopoOrder nodes links).reverse := by
    simpa using hpair.reverse
  obtain ⟨R1, R2, R3, hR⟩ := sublist_pair_split hpairR
  have hndR : ((hierTopoOrder nodes links).reverse).Nodup := List.nodup_reverse.mpr hnd
  rw [hR] at hndR
  have hnd2 : (l.sourceNodeId :: R3).Nodup := List.Nodup.of_append_right hndR
  have hsR3 : l.sourceNodeId ∉ R3 := (List.nodup_cons.mp hnd2).1
  have hdisj := (List.nodup_append.mp hndR).2.2
  have htsR3 : l.targetNodeId ∉ l.sourceNodeId :: R3 :=
    hdisj (List.mem_append_right _ (List.mem_cons_self _ _))
  have hvt : hierLayerRTL nodes links l.targetNodeId =
      (R1 ++ l.targetNodeId :: R2).foldl
        (fun layer u => stepLayer (hierIndex nodes links) (hierMapIds nodes) layer u)
        (fun _ => 0) l.targetNodeId := by
    unfold hierLayerRTL
    rw [hR, List.foldl_append]
    exact foldl_stepLayer_notmem _ _ (l.sourceNodeId :: R3) _ htsR3
  have hvs : hierLayerRTL nodes links l.sourceNodeId =
      stepLayer (hierIndex nodes links) (hierMapIds nodes)
        ((R1 ++ l.targetNodeId :: R2).foldl
          (fun layer u => stepLayer (hierIndex nodes links) (hierMapIds nodes) layer u)
          (fun _ => 0)) l.sourceNodeId l.sourceNodeId := by
    unfold hierLayerRTL
    rw [hR, List.foldl_append, List.foldl_cons]
    exact foldl_stepLayer_notmem _ _ R3 _ hsR3
  have hodpos : ¬((hierIndex nodes links).outDegree l.sourceNodeId = 0) := by
    rw [hierIndex_outDegree]
    have : 0 < links.countP (fun x =>
        decide (x.sourceNodeId ∈ hierMapIds nodes ∧ x.targetNodeId ∈ hierMapIds nodes) &&
        (x.sourceNodeId == l.sourceNodeId)) := by
      rw [List.countP_pos_iff]
      exact ⟨l, hl, by simp [hls, hlt]⟩
    omega
  have hadj : l.targetNodeId ∈ (hierIndex nodes links).adj l.sourceNodeId := by
    rw [hierIndex_adj]
    exact List.mem_map.mpr ⟨l, List.mem_filter.mpr ⟨hl, by simp [hls, hlt]⟩, rfl⟩
  have hnn : 0 ≤ (R1 ++ l.targetNodeId :: R2).foldl
      (fun layer u => stepLayer (hierIndex nodes links) (hierMapIds nodes) layer u)
      (fun _ => 0) l.targetNodeId :=
    foldl_stepLayer_nonneg _ _ _ _ (fun _ => le_rfl) _
  have hmc := foldl_maxChild_ge_mem (hierMapIds nodes)
    ((R1 ++ l.targetNodeId :: R2).foldl
      (fun layer u => stepLayer (hierIndex nodes links) (hierMapIds nodes) layer u)
      (fun _ => 0))
    ((hierIndex nodes links).adj l.sourceNodeId) (-1) hadj hlt
  have hstep : ∀ (layer : String → Int),
      ¬((hierIndex nodes links).outDegree l.sourceNodeId = 0) →
      stepLayer (hierIndex nodes links) (hierMapIds nodes) layer
          l.sourceNodeId l.sourceNodeId =
        (if ((hierIndex nodes links).adj l.sourceNodeId).foldl
            (fun m v => if v ∈ hierMapIds nodes then max m (layer v) else m) (-1) = -1
         then -1
         else ((hierIndex nodes links).adj l.sourceNodeId).foldl
            (fun m v => if v ∈ hierMapIds nodes then max m (layer v) else m) (-1)) + 1 := by
    intro layer h
    unfold stepLayer
    rw [if_neg h]
    simp
  rw [hvt, hvs, hstep _ hodpos]
  have h2 : ∀ x : Int, 0 ≤ x → (if x = -1 then -1 else x) + 1 = x + 1 := by
    intro x hx
    rw [if_neg (by omega)]
  rw [h2 _ (le_trans hnn hmc)]
  omega

/-- C2: on an acyclic snapshot (witnessed by a strict ranking of the
map-internal edges), every node with out-degree 0 receives the maximum
visual column index, and along every edge with both endpoints present the
source's column index is strictly less than the target's. -/
theorem hierarchical_columns_sound (nodes : List NodeData) (links : List LinkData)
    (rank : String → Nat)
    (hrank : ∀ l ∈ links, (∃ n ∈ nodes, n.id = l.sourceNodeId) →
      (∃ n ∈ nodes, n.id = l.targetNodeId) → rank l.sourceNodeId < rank l.targetNodeId) :
    (∀ n ∈ nodes, (hierIndex nodes links).outDegree n.id = 0 →
      ∀ m ∈ nodes, visualColumn nodes links m.id ≤ visualColumn nodes links n.id) ∧
    (∀ l ∈ links, (∃ n ∈ nodes, n.id = l.sourceNodeId) →
      (∃ n ∈ nodes, n.id = l.targetNodeId) →
      visualColumn nodes links l.sourceNodeId < visualColumn nodes links l.targetNodeId) := by
  have hrank' : ∀ l ∈ links, l.sourceNodeId ∈ hierMapIds nodes →
      l.targetNodeId ∈ hierMapIds nodes → rank l.sourceNodeId < rank l.targetNodeId := by
    intro l hl h1 h2
    exact hrank l hl ((mem_hierMapIds nodes _).mp h1) ((mem_hierMapIds nodes _).mp h2)
  have hcomp := hierTopoOrder_complete nodes links rank hrank'
  constructor
  · intro n hn hod m hm
    unfold visualColumn
    have h1 := hierLayerRTL_sink nodes links
      (hcomp n.id ((mem_hierMapIds nodes n.id).mpr ⟨n, hn, rfl⟩)) hod
    have h2 := hierLayerRTL_nonneg nodes links m.id
    omega
  · intro l hl hs ht
    unfold visualColumn
    have hsm := (mem_hierMapIds nodes l.sourceNodeId).mpr hs
    have htm := (mem_hierMapIds nodes l.targetNodeId).mpr ht
    have := hierLayerRTL_edge nodes links hl hsm htm (hcomp l.targetNodeId htm)
    omega

/-- Witness for C2 on the acyclic snapshot `a → b`, ranked by
`a ↦ 0, b ↦ 1`. -/
theorem hierarchical_columns_sound_witness :
    (∀ l ∈ [fixAB], (∃ n ∈ [fixA, fixB], n.id = l.sourceNodeId) →
      (∃ n ∈ [fixA, fixB], n.id = l.targetNodeId) →
      (if l.sourceNodeId = "b" then 1 else 0) < (if l.targetNodeId = "b" then 1 else 0)) ∧
    ((∀ n ∈ [fixA, fixB], (hierIndex [fixA, fixB] [fixAB]).outDegree n.id = 0 →
      ∀ m ∈ [fixA, fixB],
        visualColumn [fixA, fixB] [fixAB] m.id ≤ visualColumn [fixA, fixB] [fixAB] n.id) ∧
    (∀ l ∈ [fixAB], (∃ n ∈ [fixA, fixB], n.id = l.sourceNodeId) →
      (∃ n ∈ [fixA, fixB], n.id = l.targetNodeId) →
      visualColumn [fixA, fixB] [fixAB] l.sourceNodeId <
        visualColumn [fixA, fixB] [fixAB] l.targetNodeId)) :=
  ⟨by decide,
   hierarchical_columns_sound [fixA, fixB] [fixAB]
     (fun s => if s = "b" then 1 else 0) (by decide)⟩

/-! ## Group collection and placement: key-set lemmas -/

/-- A fold whose step preserves a predicate for list elements preserves it. -/
theorem foldl_invariant_mem {α β : Type} {P : β → Prop} {f : β → α → β} :
    ∀ (ls : List α), (∀ b a, a ∈ ls → P b → P (f b a)) →
      ∀ b, P b → P (ls.foldl f b) := by
  intro ls
  induction ls with
  | nil => intro _ b hb; simpa using hb
  | cons x ls ih =>
    intro h b hb
    simpa using ih (fun b a ha hb => h b a (List.mem_cons_of_mem x ha) hb) _
      (h b x (List.mem_cons_self x ls) hb)

/-- Inserting into a sorted list is a permutation of consing. -/
theorem jsInsert_perm {α : Type} (le : α → α → Bool) (x : α) :
    ∀ l : List α, (jsInsert le x l).Perm (x :: l) := by
  intro l
  induction l with
  | nil => simp [jsInsert]
  | cons y ys ih =>
    unfold jsInsert
    split
    · exact List.Perm.refl _
    · exact (List.Perm.cons y ih).trans (List.Perm.swap x y ys)

/-- The comparator sort is a permutation of its input. -/
theorem jsSortBy_perm {α : Type} (le : α → α → Bool) :
    ∀ l : List α, (jsSortBy le l).Perm l := by
  intro l
  induction l with
  | nil => simp [jsSortBy]
  | cons x xs ih =>
    unfold jsSortBy
    exact (jsInsert_perm le x (jsSortBy le xs)).trans (List.Perm.cons x ih)

/-- Key membership after `Map.set`. -/
theorem mapSet_keys_mem {m : List (String × Pt)} {k x : String} {v : Pt} :
    x ∈ (mapSet m k v).map Prod.fst ↔ x ∈ m.map Prod.fst ∨ x = k := by
  unfold mapSet
  split
  · rename_i hany
    have hk : k ∈ m.map Prod.fst := by
      obtain ⟨e, he, heq⟩ := List.any_eq_true.mp hany
      rw [beq_iff_eq] at heq
      exact heq ▸ List.mem_map_of_mem Prod.fst he
    have hkeys : (m.map (fun e => if e.1 == k then (k, v) else e)).map Prod.fst =
        m.map Prod.fst := by
      rw [List.map_map]
      apply List.map_congr_left
      intro e _
      by_cases he : e.1 = k
      · simp [he]
      · simp [he]
    rw [hkeys]
    constructor
    · exact Or.inl
    · rintro (h | rfl)
      · exact h
      · exact hk
  · simp [or_comm]

/-- `Map.set` preserves duplicate-freedom of the key list. -/
theorem mapSet_keys_nodup {m : List (String × Pt)} {k : String} {v : Pt}
    (h : (m.map Prod.fst).Nodup) : ((mapSet m k v).map Prod.fst).Nodup := by
  unfold mapSet
  split
  · have hkeys : (m.map (fun e => if e.1 == k then (k, v) else e)).map Prod.fst =
        m.map Prod.fst := by
      rw [List.map_map]
      apply List.map_congr_left
      intro e _
      by_cases he : e.1 = k
      · simp [he]
      · simp [he]
    rw [hkeys]
    exact h
  · rename_i hany
    have hk : k ∉ m.map Prod.fst := by
      intro hmem
      obtain ⟨e, he, heq⟩ := List.mem_map.mp hmem
      have hcontra : m.any (fun e => e.1 == k) = true :=
        List.any_eq_true.mpr ⟨e, he, by simp [heq]⟩
      exact hany hcontra
    simp [List.nodup_append, h, hk]

/-- `getFullGroup` only collects map ids (given map-internal starts). -/
theorem getFullGroup_sub (adj revAdj : String → List String) (mapIds : List String) :
    ∀ (fuel : Nat) (s : String) (st : List String × List String),
      s ∈ mapIds → (∀ x ∈ st.1, x ∈ mapIds) → (∀ x ∈ st.2, x ∈ mapIds) →
      (∀ x ∈ (getFullGroup adj revAdj mapIds fuel s st).1, x ∈ mapIds) ∧
      (∀ x ∈ (getFullGroup adj revAdj mapIds fuel s st).2, x ∈ mapIds) := by
  intro fuel
  induction fuel with
  | zero => intro s st _ h1 h2; exact ⟨h1, h2⟩
  | succ fuel ih =>
    intro s st hs h1 h2
    unfold getFullGroup
    split
    · exact ⟨h1, h2⟩
    · dsimp only
      have hstep : ∀ (b : List String × List String) (a : String),
          ((∀ x ∈ b.1, x ∈ mapIds) ∧ (∀ x ∈ b.2, x ∈ mapIds)) →
          ((∀ x ∈ (if a ∈ mapIds then getFullGroup adj revAdj mapIds fuel a b else b).1,
            x ∈ mapIds) ∧
           (∀ x ∈ (if a ∈ mapIds then getFullGroup adj revAdj mapIds fuel a b else b).2,
            x ∈ mapIds)) := by
        intro b a hb
        split
        · rename_i ha
          exact ih a b ha hb.1 hb.2
        · exact hb
      have h1' : ∀ x ∈ st.1 ++ [s], x ∈ mapIds := by
        intro x hx
        rcases List.mem_append.mp hx with hx | hx
        · exact h1 x hx
        · rw [List.mem_singleton] at hx
          exact hx ▸ hs
      have h2' : ∀ x ∈ st.2 ++ [s], x ∈ mapIds := by
        intro x hx
        rcases List.mem_append.mp hx with hx | hx
        · exact h2 x hx
        · rw [List.mem_singleton] at hx
          exact hx ▸ hs
      have hmid := foldl_invariant
        (P := fun (b : List String × List String) =>
          (∀ x ∈ b.1, x ∈ mapIds) ∧ (∀ x ∈ b.2, x ∈ mapIds))
        (f := fun acc childId =>
          if childId ∈ mapIds then getFullGroup adj revAdj mapIds fuel childId acc else acc)
        hstep (adj s) (st.1 ++ [s], st.2 ++ [s]) ⟨h1', h2'⟩
      exact foldl_invariant
        (P := fun (b : List String × List String) =>
          (∀ x ∈ b.1, x ∈ mapIds) ∧ (∀ x ∈ b.2, x ∈ mapIds))
        (f := fun acc parentId =>
          if parentId ∈ mapIds then getFullGroup adj revAdj mapIds fuel parentId acc else acc)
        hstep (revAdj s) _ hmid

/-- Both passes of group collection stay inside the map. -/
theorem collectGroups_sub (nodes : List NodeData) (links : List LinkData)
    (starts : List String) (acc : List String × List (List String))
    (hst : ∀ x ∈ starts, x ∈ hierMapIds nodes)
    (h1 : ∀ x ∈ acc.1, x ∈ hierMapIds nodes)
    (h2 : ∀ g ∈ acc.2, ∀ x ∈ g, x ∈ hierMapIds nodes) :
    (∀ x ∈ (collectGroups nodes links starts acc).1, x ∈ hierMapIds nodes) ∧
    (∀ g ∈ (collectGroups nodes links starts acc).2, ∀ x ∈ g, x ∈ hierMapIds nodes) := by
  unfold collectGroups
  refine foldl_invariant_mem
    (P := fun (b : List String × List (List String)) =>
      (∀ x ∈ b.1, x ∈ hierMapIds nodes) ∧
      (∀ g ∈ b.2, ∀ x ∈ g, x ∈ hierMapIds nodes)) starts ?_ acc ⟨h1, h2⟩
  intro b a ha hb
  dsimp only
  split
  · exact hb
  · have hr := getFullGroup_sub (hierIndex nodes links).adj (hierIndex nodes links).revAdj
      (hierMapIds nodes) ((hierMapIds nodes).length + 1) a (b.1, [])
      (hst a ha) hb.1 (by simp)
    split
    · refine ⟨hr.1, ?_⟩
      intro g hg x hx
      rcases List.mem_append.mp hg with hg | hg
      · exact hb.2 g hg x hx
      · rw [List.mem_singleton] at hg
        subst hg
        have : x ∈ (getFullGroup (hierIndex nodes links).adj
            (hierIndex nodes links).revAdj (hierMapIds nodes)
            ((hierMapIds nodes).length + 1) a (b.1, [])).2 := by
          have hperm := jsSortBy_perm (fun a b =>
            let layerA := visualColumn nodes links a
            let layerB := visualColumn nodes links b
            if layerA ≠ layerB then layerA ≤ layerB
            else
              ((jsMapGet nodes a).elim 0 (fun n => n.y)) ≤
              ((jsMapGet nodes b).elim 0 (fun n => n.y)))
            (getFullGroup (hierIndex nodes links).adj (hierIndex nodes links).revAdj
              (hierMapIds nodes) ((hierMapIds nodes).length + 1) a (b.1, [])).2
          exact hperm.mem_iff.mp (by simpa [sortedGroupOf] using hx)
        exact hr.2 x this
    · exact ⟨hr.1, hb.2⟩

/-- Every group produced for the layout lies inside the map. -/
theorem hierNodeGroups_sub (nodes : List NodeData) (links : List LinkData) :
    ∀ g ∈ hierNodeGroups nodes links, ∀ x ∈ g, x ∈ hierMapIds nodes := by
  intro g hg x hx
  unfold hierNodeGroups at hg
  rw [List.Perm.mem_iff (jsSortBy_perm _ _)] at hg
  have hpass1 := collectGroups_sub nodes links (hierRootNodes nodes links) ([], [])
    (fun x hx => List.mem_of_mem_filter hx) (by simp) (by simp)
  have hpass2 := collectGroups_sub nodes links (hierMapIds nodes)
    (collectGroups nodes links (hierRootNodes nodes links) ([], []))
    (fun x hx => hx) hpass1.1 hpass1.2
  exact hpass2.2 g hg x hx

/-- A successful map lookup returns a node carrying the looked-up id. -/
theorem jsMapGet_id {nodes : List NodeData} {id : String} {n : NodeData}
    (h : jsMapGet nodes id = some n) : n.id = id := by
  have := List.find?_some h
  simpa using this

/-- The ids of the nodes placed in one visual column belong to the group. -/
theorem groupColumnNodes_id_mem (nodes : List NodeData) (links : List LinkData)
    (group : List String) (c : Int) :
    ∀ n ∈ groupColumnNodes nodes links group c, n.id ∈ group := by
  intro n hn
  unfold groupColumnNodes at hn
  rw [List.Perm.mem_iff (jsSortBy_perm _ _)] at hn
  have hn' := List.mem_of_mem_filter hn
  obtain ⟨id, hid, hget⟩ := List.mem_filterMap.mp hn'
  exact (jsMapGet_id hget) ▸ hid

/-- Placing one group keeps the position keys duplicate-free and only adds
keys from the group. -/
theorem placeGroup_keys (nodes : List NodeData) (links : List LinkData)
    (group : List String) (startY : ℚ) (positions : List (String × Pt))
    (h : (positions.map Prod.fst).Nodup) :
    ((placeGroup nodes links group startY positions).map Prod.fst).Nodup ∧
    ∀ x ∈ (placeGroup nodes links group startY positions).map Prod.fst,
      x ∈ positions.map Prod.fst ∨ x ∈ group := by
  unfold placeGroup
  refine foldl_invariant
    (P := fun (b : List (String × Pt)) =>
      (b.map Prod.fst).Nodup ∧
      ∀ x ∈ b.map Prod.fst, x ∈ positions.map Prod.fst ∨ x ∈ group)
    ?_ _ positions ⟨h, fun x hx => Or.inl hx⟩
  intro b c hb
  dsimp only
  refine foldl_invariant_mem
    (P := fun (acc : List (String × Pt) × ℚ) =>
      (acc.1.map Prod.fst).Nodup ∧
      ∀ x ∈ acc.1.map Prod.fst, x ∈ positions.map Prod.fst ∨ x ∈ group)
    (groupColumnNodes nodes links group c) ?_ (b, startY) hb
  intro acc n hn hacc
  refine ⟨mapSet_keys_nodup hacc.1, ?_⟩
  intro x hx
  rcases mapSet_keys_mem.mp hx with hx | hx
  · exact hacc.2 x hx
  · exact Or.inr (hx ▸ groupColumnNodes_id_mem nodes links group c n hn)

/-- The whole group-placement pass yields duplicate-free keys inside the map. -/
theorem placeGroups_keys (nodes : List NodeData) (links : List LinkData)
    (groups : List (List String))
    (hg : ∀ g ∈ groups, ∀ x ∈ g, x ∈ hierMapIds nodes) :
    (((placeGroups nodes links groups).1.map Prod.fst).Nodup) ∧
    ∀ x ∈ (placeGroups nodes links groups).1.map Prod.fst, x ∈ hierMapIds nodes := by
  unfold placeGroups
  refine foldl_invariant_mem
    (P := fun (acc : List (String × Pt) × ℚ) =>
      (acc.1.map Prod.fst).Nodup ∧
      ∀ x ∈ acc.1.map Prod.fst, x ∈ hierMapIds nodes)
    groups ?_ ([], PAGE_MARGIN_Y) (by simp)
  intro acc g hgmem hacc
  dsimp only
  obtain ⟨hnd, hsub⟩ := placeGroup_keys nodes links g acc.2 acc.1 hacc.1
  refine ⟨hnd, ?_⟩
  intro x hx
  rcases hsub x hx with hx | hx
  · exact hacc.2 x hx
  · exact hg g hgmem x hx

/-- The fallback loop ends with a key for every processed id and keeps every
key it starts with, whatever position and height it assigns. -/
theorem fbFold_complete {g : List (String × Pt) × ℚ → String → Pt}
    {q : List (String × Pt) × ℚ → String → ℚ} :
    ∀ (ids : List String) (acc : List (String × Pt) × ℚ) (x : String),
      (x ∈ ids ∨ x ∈ acc.1.map Prod.fst) →
      x ∈ ((ids.foldl (fun acc id =>
        if acc.1.any (fun e => e.1 == id) then acc
        else (mapSet acc.1 id (g acc id), q acc id)) acc).1).map Prod.fst := by
  intro ids
  induction ids with
  | nil =>
    intro acc x hx
    rcases hx with hx | hx
    · exact absurd hx (List.not_mem_nil x)
    · simpa using hx
  | cons id ids ih =>
    intro acc x hx
    rw [List.foldl_cons]
    have hstep : ∀ y, (y ∈ acc.1.map Prod.fst ∨ y = id) →
        y ∈ ((if acc.1.any (fun e => e.1 == id) then acc
          else (mapSet acc.1 id (g acc id), q acc id)).1).map Prod.fst := by
      intro y hy
      split
      · rename_i hany
        rcases hy with hy | hy
        · exact hy
        · obtain ⟨e, he, heq⟩ := List.any_eq_true.mp hany
          rw [beq_iff_eq] at heq
          exact hy ▸ heq ▸ List.mem_map_of_mem Prod.fst he
      · exact mapSet_keys_mem.mpr hy
    rcases hx with hx | hx
    · rcases List.mem_cons.mp hx with hx | hx
      · exact ih _ x (Or.inr (hstep x (Or.inr hx)))
      · exact ih _ x (Or.inl hx)
    · exact ih _ x (Or.inr (hstep x (Or.inl hx)))

/-- The proposed position map of the hierarchical layout has duplicate-free
keys, and its key set is exactly the layout map's key set. -/
theorem applyHierarchicalLayout_keys (nodes : List NodeData) (links : List LinkData) :
    (((applyHierarchicalLayout nodes links).map Prod.fst).Nodup) ∧
    ∀ x, x ∈ (applyHierarchicalLayout nodes links).map Prod.fst ↔
      x ∈ hierMapIds nodes := by
  by_cases hne : nodes = []
  · subst hne
    simp [applyHierarchicalLayout, hierMapIds, jsMapKeys]
  · unfold applyHierarchicalLayout
    rw [if_neg hne]
    dsimp only
    have hplaced := placeGroups_keys nodes links (hierNodeGroups nodes links)
      (hierNodeGroups_sub nodes links)
    have hstep : ∀ (acc : List (String × Pt) × ℚ) (a : String),
        a ∈ hierMapIds nodes →
        ((acc.1.map Prod.fst).Nodup ∧ ∀ x ∈ acc.1.map Prod.fst, x ∈ hierMapIds nodes) →
        ∀ (p : Pt) (y : ℚ),
        (((if acc.1.any (fun e => e.1 == a) then acc
            else (mapSet acc.1 a p, y)).1.map Prod.fst).Nodup ∧
          ∀ x ∈ (if acc.1.any (fun e => e.1 == a) then acc
            else (mapSet acc.1 a p, y)).1.map Prod.fst, x ∈ hierMapIds nodes) := by
      intro acc a ha hacc p y
      split
      · exact hacc
      · refine ⟨mapSet_keys_nodup hacc.1, ?_⟩
        intro x hx
        rcases mapSet_keys_mem.mp hx with hx | hx
        · exact hacc.2 x hx
        · exact hx ▸ ha
    have hinv := foldl_invariant_mem
      (P := fun (acc : List (String × Pt) × ℚ) =>
        (acc.1.map Prod.fst).Nodup ∧ ∀ x ∈ acc.1.map Prod.fst, x ∈ hierMapIds nodes)
      (f := fun (acc : List (String × Pt) × ℚ) id =>
        if acc.1.any (fun e => e.1 == id) then acc
        else (mapSet acc.1 id
          ⟨if (hierMapIds nodes).length =
              (placeGroups nodes links (hierNodeGroups nodes links)).1.length ∧
              hierNodeGroups nodes links = [] then PAGE_MARGIN_X
            else PAGE_MARGIN_X +
              ((0 : Int) + 1 : ℚ) * (DEFAULT_NODE_WIDTH + HORIZONTAL_SPACING),
           acc.2⟩,
         acc.2 + jsNum ((jsMapGet nodes id).bind (fun n => n.height)) DEFAULT_NODE_HEIGHT
           + VERTICAL_SPACING))
      (hierMapIds nodes) (fun acc a ha hacc => hstep acc a ha hacc _ _)
      ((placeGroups nodes links (hierNodeGroups nodes links)).1,
       (placeGroups nodes links (hierNodeGroups nodes links)).2) hplaced
    refine ⟨hinv.1, ?_⟩
    intro x
    constructor
    · exact fun hx => hinv.2 x hx
    · exact fun hx => fbFold_complete (hierMapIds nodes) _ x (Or.inl hx)

/-- With duplicate-free node ids, the hierarchical layout assigns exactly one
position per input node. -/
theorem layout_keys_perm (nodes : List NodeData) (links : List LinkData)
    (hN : (nodes.map NodeData.id).Nodup) :
    ((applyHierarchicalLayout nodes links).map Prod.fst).Perm
      (nodes.map NodeData.id) := by
  have hk := applyHierarchicalLayout_keys nodes links
  refine (List.perm_ext_iff_of_nodup hk.1 hN).mpr ?_
  intro x
  rw [hk.2 x, mem_hierMapIds, List.mem_map]

/-- C5: for every snapshot with duplicate-free node ids — including the empty
graph, isolated nodes and cyclic graphs — the hierarchical layout assigns
exactly one position to every input node: the output key list is a permutation
of the input id list (no node dropped, none positioned twice). -/
theorem hierarchical_positions_complete (nodes : List NodeData)
    (links : List LinkData) (hN : (nodes.map NodeData.id).Nodup) :
    ((applyHierarchicalLayout nodes links).map Prod.fst).Perm
      (nodes.map NodeData.id) :=
  layout_keys_perm nodes links hN

/-- Witness for C5 on a two-node cycle. -/
theorem hierarchical_positions_complete_witness :
    (([fixA, fixB].map NodeData.id).Nodup ∧
      ((applyHierarchicalLayout [fixA, fixB] [fixAB, fixBA]).map Prod.fst).Perm
        ([fixA, fixB].map NodeData.id)) :=
  ⟨by decide, hierarchical_positions_complete [fixA, fixB] [fixAB, fixBA] (by decide)⟩

/-- C6 counterexample: a self-loop is not layering-neutral.  On the snapshot
with nodes u, v and edge u→v, adding the self-loop u→u changes v's visual
column (the self-looped u never reaches in-degree 0, so neither u nor v enters
the topological order and v falls back to layer 0). -/
theorem self_loop_changes_columns :
    visualColumn [fixU, fixV] [fixUV, fixUU] "v" ≠
      visualColumn [fixU, fixV] [fixUV] "v" := by
  decide

/-- C6 (amended): on every snapshot with duplicate-free node ids containing a
self-loop edge, traversal and hierarchical layout still complete and the
layout assigns exactly one position per input node; but the self-loop is not
treated as layering-neutral — removing it can change other nodes' columns. -/
theorem self_loop_layout_still_total (nodes : List NodeData)
    (links : List LinkData) (l : LinkData)
    (hN : (nodes.map NodeData.id).Nodup) (hl : l ∈ links)
    (hself : l.sourceNodeId = l.targetNodeId) :
    ((applyHierarchicalLayout nodes links).map Prod.fst).Perm
      (nodes.map NodeData.id) :=
  layout_keys_perm nodes links hN

/-- Witness for the amended C6 on the u/v snapshot with self-loop u→u. -/
theorem self_loop_layout_still_total_witness :
    (([fixU, fixV].map NodeData.id).Nodup ∧ fixUU ∈ [fixUV, fixUU] ∧
      fixUU.sourceNodeId = fixUU.targetNodeId) ∧
    ((applyHierarchicalLayout [fixU, fixV] [fixUV, fixUU]).map Prod.fst).Perm
      ([fixU, fixV].map NodeData.id) :=
  ⟨⟨by decide, by decide, by decide⟩,
   self_loop_layout_still_total [fixU, fixV] [fixUV, fixUU] fixUU
     (by decide) (by decide) (by decide)⟩
